import Mathlib

/-!
Verification of the quantum-liquidity execution/risk core.

Shallow embedding of `src/cpp/src/execution/position_manager.cpp`,
`src/cpp/src/risk/risk_manager.cpp` and
`src/cpp/src/execution/execution_engine.cpp`.  `double` values are
modelled as exact rationals (ℚ), `std::map` as association lists with
first-match lookup, and the C++ numeric literals (`1e-8`,
`60'000'000'000` ns) appear verbatim as rational / integer constants.
-/

namespace QL

/-- The `1e-8` tolerance used throughout the C++ sources. -/
def eps : ℚ := 1 / 100000000

/-- `one_minute_ns` from `RiskManager::check_rate_limit`. -/
def oneMinuteNs : Int := 60000000000

/-! ### Association-list primitives (model of `std::map` access patterns) -/

/-- `map.find(k)` on an association list (first match wins). -/
def alookup {β : Type} (k : String) : List (String × β) → Option β
  | [] => none
  | (k', v) :: rest => if k' = k then some v else alookup k rest

/-- `map[k] = v` (insert-or-assign): replaces the first binding of `k`,
appends a new binding when the key is absent. -/
def aupdate {β : Type} (k : String) (v : β) : List (String × β) → List (String × β)
  | [] => [(k, v)]
  | (k', v') :: rest => if k' = k then (k, v) :: rest else (k', v') :: aupdate k v rest

/-- `map.erase(it)` after a successful `find`: removes the first binding of
`k`, leaves the list unchanged when the key is absent. -/
def aerase {β : Type} (k : String) : List (String × β) → List (String × β)
  | [] => []
  | (k', v') :: rest => if k' = k then rest else (k', v') :: aerase k rest

/-- Erase the first occurrence of an element from a plain list. -/
def lerase (k : String) : List String → List String
  | [] => []
  | k' :: rest => if k' = k then rest else k' :: lerase k rest

theorem alookup_aupdate_self {β : Type} (k : String) (v : β) :
    ∀ l : List (String × β), alookup k (aupdate k v l) = some v := by
  intro l
  induction l with
  | nil => simp [aupdate, alookup]
  | cons hd tl ih =>
      by_cases h : hd.1 = k
      · simp [aupdate, alookup, h]
      · simpa [aupdate, alookup, h] using ih

theorem alookup_aerase_self {β : Type} (k : String) :
    ∀ l : List (String × β), (l.map Prod.fst).Nodup →
      alookup k (aerase k l) = none := by
  intro l
  induction l with
  | nil => simp [aerase, alookup]
  | cons hd tl ih =>
      intro hnd
      simp only [List.map_cons, List.nodup_cons] at hnd
      by_cases h : hd.1 = k
      · simp only [aerase, h, if_pos rfl]
        subst h
        clear ih
        induction tl with
        | nil => simp [alookup]
        | cons hd2 tl2 ih2 =>
            have h2 : hd2.1 ≠ hd.1 := by
              intro he
              exact hnd.1 (by simp [he])
            simp only [alookup, if_neg h2]
            exact ih2 ⟨fun hm => hnd.1 (List.mem_cons_of_mem _ hm), hnd.2.of_cons⟩
      · simpa [aerase, alookup, h] using ih hnd.2

theorem aupdate_keys_fresh {β : Type} (k : String) (v : β) :
    ∀ l : List (String × β), alookup k l = none →
      (aupdate k v l).map Prod.fst = l.map Prod.fst ++ [k] := by
  intro l
  induction l with
  | nil => simp [aupdate]
  | cons hd tl ih =>
      intro hnone
      simp only [alookup] at hnone
      by_cases h : hd.1 = k
      · simp [h] at hnone
      · simp only [aupdate, if_neg h, List.map_cons, List.cons_append, List.cons.injEq,
          true_and]
        exact ih (by simpa [h] using hnone)

theorem aerase_keys {β : Type} (k : String) :
    ∀ l : List (String × β), (aerase k l).map Prod.fst = lerase k (l.map Prod.fst) := by
  intro l
  induction l with
  | nil => simp [aerase, lerase]
  | cons hd tl ih =>
      by_cases h : hd.1 = k
      · simp [aerase, lerase, h]
      · simp [aerase, lerase, h, ih]

/-! ### Shared domain types (`include/quantumliquidity/execution/types.hpp`) -/

/-- `OrderSide` (`BUY = 1`, `SELL = -1`). -/
inductive OrderSide | buy | sell
deriving DecidableEq

/-- `OrderType`. -/
inductive OrderType | market | limit | stop | stopLimit
deriving DecidableEq

/-- `OrderStatus`. -/
inductive OrderStatus
  | pending | submitted | acknowledged | partiallyFilled | filled
  | cancelled | rejected | error | expired
deriving DecidableEq

/-- `Fill` (optional exchange id omitted; it is never read by the core). -/
structure Fill where
  fill_id : String
  order_id : String
  instrument : String
  side : OrderSide
  quantity : ℚ
  price : ℚ
  commission : ℚ
  timestamp_ns : Int
deriving DecidableEq

/-- `Position`. -/
structure Position where
  instrument : String
  quantity : ℚ
  entry_price : ℚ
  unrealized_pnl : ℚ
  realized_pnl : ℚ
  last_update_ns : Int
  num_fills_today : Nat
  total_commission : ℚ
deriving DecidableEq

/-! ### Position manager (`src/cpp/src/execution/position_manager.cpp`) -/

/-- `signed_fill_qty` as computed at the top of `PositionManager::on_fill`:
`(fill.side == BUY ? 1.0 : -1.0) * fill.quantity`. -/
def signedFillQty (f : Fill) : ℚ :=
  (match f.side with | OrderSide.buy => 1 | OrderSide.sell => -1) * f.quantity

/-- `PositionManager::calculate_weighted_avg_price`. -/
def calculate_weighted_avg_price (current_qty current_entry fill_qty fill_price : ℚ) : ℚ :=
  if |current_qty + fill_qty| < eps then 0
  else (current_qty * current_entry + fill_qty * fill_price) / (current_qty + fill_qty)

/-- `PositionManager::calculate_realized_pnl`. -/
def calculate_realized_pnl (position_qty entry_price fill_qty fill_price : ℚ) : ℚ :=
  let qty_to_close := min |position_qty| |fill_qty|
  if ¬ (position_qty * fill_qty < 0) then 0
  else if position_qty > 0 then qty_to_close * (fill_price - entry_price)
  else qty_to_close * (entry_price - fill_price)

/-- State of a `PositionManager` (`positions_`, `total_realized_pnl_`,
`total_fills_today_`). -/
structure PositionManager where
  positions : List (String × Position)
  total_realized_pnl : ℚ
  total_fills_today : Nat
deriving DecidableEq

/-- The `PositionManager()` constructor. -/
def pmInit : PositionManager := ⟨[], 0, 0⟩

/-- `PositionManager::on_fill`, line by line.  The three branches are: new
position; same direction (or flat) → weighted-average entry; opposite
direction → realize PnL, cross-through-zero resets the entry price. -/
def pmOnFill (pm : PositionManager) (fill : Fill) : PositionManager :=
  let total_fills := pm.total_fills_today + 1
  let signed_fill_qty := signedFillQty fill
  match alookup fill.instrument pm.positions with
  | none =>
      let pos : Position :=
        { instrument := fill.instrument
          quantity := signed_fill_qty
          entry_price := fill.price
          unrealized_pnl := 0
          realized_pnl := 0
          last_update_ns := fill.timestamp_ns
          num_fills_today := 1
          total_commission := fill.commission }
      { pm with positions := aupdate fill.instrument pos pm.positions
                total_fills_today := total_fills }
  | some pos =>
      let same_direction := pos.quantity * signed_fill_qty > 0
      if same_direction ∨ pos.quantity = 0 then
        let pos' :=
          { pos with entry_price := calculate_weighted_avg_price
                       pos.quantity pos.entry_price signed_fill_qty fill.price
                     quantity := pos.quantity + signed_fill_qty
                     last_update_ns := fill.timestamp_ns
                     num_fills_today := pos.num_fills_today + 1
                     total_commission := pos.total_commission + fill.commission }
        { pm with positions := aupdate fill.instrument pos' pm.positions
                  total_fills_today := total_fills }
      else
        let realized := calculate_realized_pnl
                          pos.quantity pos.entry_price signed_fill_qty fill.price
        let old_qty := pos.quantity
        let new_qty := pos.quantity + signed_fill_qty
        let new_entry :=
          if (old_qty > 0 ∧ new_qty < 0) ∨ (old_qty < 0 ∧ new_qty > 0) then fill.price
          else pos.entry_price
        let pos' :=
          { pos with realized_pnl := pos.realized_pnl + realized
                     quantity := new_qty
                     entry_price := new_entry
                     last_update_ns := fill.timestamp_ns
                     num_fills_today := pos.num_fills_today + 1
                     total_commission := pos.total_commission + fill.commission }
        { pm with positions := aupdate fill.instrument pos' pm.positions
                  total_realized_pnl := pm.total_realized_pnl + realized
                  total_fills_today := total_fills }

/-- `PositionManager::reset_daily`. -/
def pmResetDaily (pm : PositionManager) : PositionManager :=
  { positions := pm.positions.map (fun e =>
      (e.1, { e.2 with realized_pnl := 0, num_fills_today := 0, total_commission := 0 }))
    total_realized_pnl := 0
    total_fills_today := 0 }

/-- `PositionManager::get_total_realized_pnl`. -/
def pmGetTotalRealizedPnl (pm : PositionManager) : ℚ := pm.total_realized_pnl

/-- C1: for a stored position with quantity `q ≠ 0` and entry price `p_e`, a
fill of opposite sign with signed quantity `f` and price `p_f` increases both
the position's and the global realized PnL by `min |f| |q| * (p_f - p_e)` when
`q > 0` (and by `min |f| |q| * (p_e - p_f)` when `q < 0`), sets the quantity to
`q + f`, leaves the entry price unchanged when `|f| ≤ |q|`, and sets it to
`p_f` when `|f| > |q|`. -/
theorem pm_onFill_reduces_position
    (pm : PositionManager) (fill : Fill) (pos : Position)
    (hlk : alookup fill.instrument pm.positions = some pos)
    (hopp : pos.quantity * signedFillQty fill < 0) :
    ∃ pos', alookup fill.instrument (pmOnFill pm fill).positions = some pos' ∧
      pos'.realized_pnl = pos.realized_pnl +
        min |signedFillQty fill| |pos.quantity| *
          (if 0 < pos.quantity then fill.price - pos.entry_price
           else pos.entry_price - fill.price) ∧
      (pmOnFill pm fill).total_realized_pnl = pm.total_realized_pnl +
        min |signedFillQty fill| |pos.quantity| *
          (if 0 < pos.quantity then fill.price - pos.entry_price
           else pos.entry_price - fill.price) ∧
      pos'.quantity = pos.quantity + signedFillQty fill ∧
      (|signedFillQty fill| ≤ |pos.quantity| → pos'.entry_price = pos.entry_price) ∧
      (|pos.quantity| < |signedFillQty fill| → pos'.entry_price = fill.price) := by
  have hnsame : ¬ (pos.quantity * signedFillQty fill > 0 ∨ pos.quantity = 0) := by
    rintro (h | h)
    · exact absurd hopp (not_lt.mpr h.le)
    · rw [h, zero_mul] at hopp; exact absurd hopp (lt_irrefl 0)
  have hreal : calculate_realized_pnl pos.quantity pos.entry_price
      (signedFillQty fill) fill.price =
      min |signedFillQty fill| |pos.quantity| *
        (if 0 < pos.quantity then fill.price - pos.entry_price
         else pos.entry_price - fill.price) := by
    unfold calculate_realized_pnl
    rw [if_neg (not_not_intro hopp), min_comm]
    rcases mul_neg_iff.mp hopp with ⟨hq, _⟩ | ⟨hq, _⟩
    · rw [if_pos hq, if_pos hq]
    · rw [if_neg (asymm hq), if_neg (asymm hq)]
  simp only [pmOnFill, hlk, if_neg hnsame]
  refine ⟨_, alookup_aupdate_self _ _ _, ?_, ?_, rfl, ?_, ?_⟩
  · simpa using congrArg (pos.realized_pnl + ·) hreal
  · simpa using congrArg (pm.total_realized_pnl + ·) hreal
  · intro hle
    rcases mul_neg_iff.mp hopp with ⟨hq, hf⟩ | ⟨hq, hf⟩
    · rw [abs_of_neg hf, abs_of_pos hq] at hle
      have hcond : ¬ ((pos.quantity > 0 ∧ pos.quantity + signedFillQty fill < 0) ∨
          (pos.quantity < 0 ∧ pos.quantity + signedFillQty fill > 0)) := by
        rintro (⟨_, hlt⟩ | ⟨hq', _⟩)
        · linarith
        · linarith
      simp only [if_neg hcond]
    · rw [abs_of_pos hf, abs_of_neg hq] at hle
      have hcond : ¬ ((pos.quantity > 0 ∧ pos.quantity + signedFillQty fill < 0) ∨
          (pos.quantity < 0 ∧ pos.quantity + signedFillQty fill > 0)) := by
        rintro (⟨hq', _⟩ | ⟨_, hgt⟩)
        · linarith
        · linarith
      simp only [if_neg hcond]
  · intro hlt
    rcases mul_neg_iff.mp hopp with ⟨hq, hf⟩ | ⟨hq, hf⟩
    · rw [abs_of_neg hf, abs_of_pos hq] at hlt
      have hcond : (pos.quantity > 0 ∧ pos.quantity + signedFillQty fill < 0) ∨
          (pos.quantity < 0 ∧ pos.quantity + signedFillQty fill > 0) :=
        Or.inl ⟨hq, by linarith⟩
      simp only [if_pos hcond]
    · rw [abs_of_pos hf, abs_of_neg hq] at hlt
      have hcond : (pos.quantity > 0 ∧ pos.quantity + signedFillQty fill < 0) ∨
          (pos.quantity < 0 ∧ pos.quantity + signedFillQty fill > 0) :=
        Or.inr ⟨hq, by linarith⟩
      simp only [if_pos hcond]

/-- Concrete state for the C1 witness: a long position of 100 @ 10. -/
def c1Pm : PositionManager :=
  pmOnFill pmInit ⟨"F1", "O1", "EURUSD", OrderSide.buy, 100, 10, 0, 0⟩

/-- Concrete opposite-side fill for the C1 witness: sell 40 @ 12. -/
def c1Fill : Fill := ⟨"F2", "O1", "EURUSD", OrderSide.sell, 40, 12, 0, 0⟩

/-- Stored position matching `c1Pm`. -/
def c1Pos : Position := ⟨"EURUSD", 100, 10, 0, 0, 0, 1, 0⟩

/-- Witness for C1 at the concrete input: long 100 @ 10, sell 40 @ 12. -/
theorem pm_onFill_reduces_position_witness :
    alookup c1Fill.instrument c1Pm.positions = some c1Pos ∧
    c1Pos.quantity * signedFillQty c1Fill < 0 ∧
    (∃ pos', alookup c1Fill.instrument (pmOnFill c1Pm c1Fill).positions = some pos' ∧
      pos'.realized_pnl = c1Pos.realized_pnl +
        min |signedFillQty c1Fill| |c1Pos.quantity| *
          (if 0 < c1Pos.quantity then c1Fill.price - c1Pos.entry_price
           else c1Pos.entry_price - c1Fill.price) ∧
      (pmOnFill c1Pm c1Fill).total_realized_pnl = c1Pm.total_realized_pnl +
        min |signedFillQty c1Fill| |c1Pos.quantity| *
          (if 0 < c1Pos.quantity then c1Fill.price - c1Pos.entry_price
           else c1Pos.entry_price - c1Fill.price) ∧
      pos'.quantity = c1Pos.quantity + signedFillQty c1Fill ∧
      (|signedFillQty c1Fill| ≤ |c1Pos.quantity| → pos'.entry_price = c1Pos.entry_price) ∧
      (|c1Pos.quantity| < |signedFillQty c1Fill| → pos'.entry_price = c1Fill.price)) :=
  ⟨by norm_num [c1Pm, c1Fill, c1Pos, pmOnFill, pmInit, alookup, aupdate, signedFillQty],
   by norm_num [c1Fill, c1Pos, signedFillQty],
   pm_onFill_reduces_position c1Pm c1Fill c1Pos
     (by norm_num [c1Pm, c1Fill, c1Pos, pmOnFill, pmInit, alookup, aupdate, signedFillQty])
     (by norm_num [c1Fill, c1Pos, signedFillQty])⟩

/-- Helper for C2: a same-sign (or flat) fill whose resulting quantity clears
the `1e-8` guard sets the entry price to the value-weighted average. -/
theorem pm_onFill_same_sign_step
    (pm : PositionManager) (fill : Fill) (pos : Position)
    (hlk : alookup fill.instrument pm.positions = some pos)
    (hsame : pos.quantity * signedFillQty fill > 0 ∨ pos.quantity = 0)
    (hguard : eps ≤ |pos.quantity + signedFillQty fill|) :
    ∃ pos', alookup fill.instrument (pmOnFill pm fill).positions = some pos' ∧
      pos'.quantity = pos.quantity + signedFillQty fill ∧
      pos'.entry_price =
        (pos.quantity * pos.entry_price + signedFillQty fill * fill.price) /
          (pos.quantity + signedFillQty fill) := by
  simp only [pmOnFill, hlk, if_pos hsame]
  refine ⟨_, alookup_aupdate_self _ _ _, rfl, ?_⟩
  unfold calculate_weighted_avg_price
  rw [if_neg (not_lt.mpr hguard)]

/-- Helper for C2: folding a run of buy fills (each of quantity at least
`1e-8`) over a position whose quantity is at least `1e-8` accumulates the
volume-weighted average entry, stated in product form. -/
theorem pm_buy_fold (instr : String) :
    ∀ (fills : List Fill) (pm : PositionManager) (pos : Position),
      alookup instr pm.positions = some pos →
      eps ≤ pos.quantity →
      (∀ f ∈ fills, f.instrument = instr ∧ f.side = OrderSide.buy ∧ eps ≤ f.quantity) →
      ∃ pos', alookup instr (fills.foldl pmOnFill pm).positions = some pos' ∧
        pos'.quantity = pos.quantity + (fills.map Fill.quantity).sum ∧
        pos'.entry_price * pos'.quantity =
          pos.entry_price * pos.quantity +
            (fills.map (fun f => f.quantity * f.price)).sum := by
  intro fills
  induction fills with
  | nil =>
      intro pm pos hlk _ _
      exact ⟨pos, by simpa using hlk, by simp, by simp⟩
  | cons f rest ih =>
      intro pm pos hlk hq hall
      obtain ⟨hinstr, hside, hfq⟩ := hall f (List.mem_cons_self f rest)
      have hsf : signedFillQty f = f.quantity := by
        simp [signedFillQty, hside]
      have hepspos : (0 : ℚ) < eps := by norm_num [eps]
      have hqpos : 0 < pos.quantity := lt_of_lt_of_le hepspos hq
      have hfpos : 0 < f.quantity := lt_of_lt_of_le hepspos hfq
      have hlk' : alookup f.instrument pm.positions = some pos := by rw [hinstr]; exact hlk
      have hsame : pos.quantity * signedFillQty f > 0 ∨ pos.quantity = 0 :=
        Or.inl (by rw [hsf]; exact mul_pos hqpos hfpos)
      have hguard : eps ≤ |pos.quantity + signedFillQty f| := by
        rw [hsf, abs_of_pos (by linarith)]
        linarith
      obtain ⟨pos1, hlk1, hqty1, hentry1⟩ :=
        pm_onFill_same_sign_step pm f pos hlk' hsame hguard
      have hlk1' : alookup instr (pmOnFill pm f).positions = some pos1 := by
        rw [hinstr] at hlk1; exact hlk1
      have hq1 : eps ≤ pos1.quantity := by
        rw [hqty1, hsf]; linarith
      obtain ⟨pos', hlk2, hqty2, hentry2⟩ :=
        ih (pmOnFill pm f) pos1 hlk1' hq1 (fun g hg => hall g (List.mem_cons_of_mem f hg))
      refine ⟨pos', by simpa using hlk2, ?_, ?_⟩
      · rw [hqty2, hqty1, hsf]
        simp only [List.map_cons, List.sum_cons]
        ring
      · have hne : pos.quantity + signedFillQty f ≠ 0 := by
          rw [hsf]; positivity
        have hprod : pos1.entry_price * pos1.quantity =
            pos.entry_price * pos.quantity + f.quantity * f.price := by
          rw [hentry1, hqty1, div_mul_cancel₀ _ hne, hsf]
          ring
        rw [hentry2, hprod]
        simp only [List.map_cons, List.sum_cons]
        ring

/-- First tiny buy for the C2 counterexample: 4e-9 units at price 100. -/
def c2FillA : Fill := ⟨"F1", "O1", "EURUSD", OrderSide.buy, 1 / 250000000, 100, 0, 0⟩

/-- Second tiny buy for the C2 counterexample: 4e-9 units at price 200. -/
def c2FillB : Fill := ⟨"F2", "O2", "EURUSD", OrderSide.buy, 1 / 250000000, 200, 0, 0⟩

/-- Position held after `c2FillA`. -/
def c2Pos : Position := ⟨"EURUSD", 1 / 250000000, 100, 0, 0, 0, 1, 0⟩

/-- Manager state after `c2FillA`. -/
def c2Pm : PositionManager := pmOnFill pmInit c2FillA

/-- C2 fails as stated: a same-sign fill onto a 4e-9-unit long at 100 with
another 4e-9 units at 200 should, per the claim, set the entry price to the
value-weighted average 150, but `|q + f| = 8e-9 < 1e-8` trips the guard in
`calculate_weighted_avg_price` and the entry price is set to 0 instead. -/
theorem pm_waep_counterexample :
    alookup "EURUSD" c2Pm.positions = some c2Pos ∧
    c2Pos.quantity * signedFillQty c2FillB > 0 ∧
    (c2Pos.quantity * c2Pos.entry_price + signedFillQty c2FillB * c2FillB.price) /
        (c2Pos.quantity + signedFillQty c2FillB) = 150 ∧
    (alookup "EURUSD" (pmOnFill c2Pm c2FillB).positions).map Position.entry_price =
      some 0 := by
  refine ⟨?_, ?_, ?_, ?_⟩
  · norm_num [c2Pm, c2FillA, c2Pos, pmOnFill, pmInit, alookup, aupdate, signedFillQty]
  · norm_num [c2Pos, c2FillB, signedFillQty]
  · norm_num [c2Pos, c2FillB, signedFillQty]
  · have habs : |(1 : ℚ) / 125000000| = 1 / 125000000 := abs_of_pos (by norm_num)
    norm_num [c2Pm, c2FillA, c2FillB, c2Pos, pmOnFill, pmInit, alookup, aupdate,
      signedFillQty, calculate_weighted_avg_price, eps, habs]

/-- C2 (amended): a same-sign (or flat-to-open) fill sets the quantity to
`q + f` and the entry price to the value-weighted average
`(q*p_e + f*p_f) / (q + f)` provided `|q + f| ≥ 1e-8` (when `|q + f| < 1e-8`
the code sets the entry price to 0 instead); consequently, after any sequence
of same-sign buy fills each of quantity ≥ 1e-8 starting from a fresh manager,
the entry price equals the volume-weighted average price of the contributing
fills exactly. -/
theorem pm_waep :
    (∀ (pm : PositionManager) (fill : Fill) (pos : Position),
        alookup fill.instrument pm.positions = some pos →
        (pos.quantity * signedFillQty fill > 0 ∨ pos.quantity = 0) →
        eps ≤ |pos.quantity + signedFillQty fill| →
        ∃ pos', alookup fill.instrument (pmOnFill pm fill).positions = some pos' ∧
          pos'.quantity = pos.quantity + signedFillQty fill ∧
          pos'.entry_price =
            (pos.quantity * pos.entry_price + signedFillQty fill * fill.price) /
              (pos.quantity + signedFillQty fill)) ∧
    (∀ (instr : String) (fills : List Fill),
        (∀ f ∈ fills, f.instrument = instr ∧ f.side = OrderSide.buy ∧ eps ≤ f.quantity) →
        ∀ pos', alookup instr (fills.foldl pmOnFill pmInit).positions = some pos' →
          pos'.quantity = (fills.map Fill.quantity).sum ∧
          pos'.entry_price =
            (fills.map (fun f => f.quantity * f.price)).sum /
              (fills.map Fill.quantity).sum) := by
  constructor
  · exact pm_onFill_same_sign_step
  · intro instr fills hall pos' hlk'
    cases fills with
    | nil => simp [pmInit, alookup] at hlk'
    | cons f rest =>
        obtain ⟨hinstr, hside, hfq⟩ := hall f (List.mem_cons_self f rest)
        have hsf : signedFillQty f = f.quantity := by simp [signedFillQty, hside]
        have hepspos : (0 : ℚ) < eps := by norm_num [eps]
        have hfpos : 0 < f.quantity := lt_of_lt_of_le hepspos hfq
        have hstep : pmOnFill pmInit f =
            { positions := [(f.instrument,
                ⟨f.instrument, signedFillQty f, f.price, 0, 0, f.timestamp_ns, 1,
                 f.commission⟩)]
              total_realized_pnl := 0
              total_fills_today := 1 } := by
          simp [pmOnFill, pmInit, alookup, aupdate]
        have hlk0 : alookup instr (pmOnFill pmInit f).positions =
            some ⟨f.instrument, signedFillQty f, f.price, 0, 0, f.timestamp_ns, 1,
              f.commission⟩ := by
          rw [hstep, hinstr]
          simp [alookup]
        obtain ⟨pos2, hlk2, hqty2, hentry2⟩ :=
          pm_buy_fold instr rest (pmOnFill pmInit f)
            ⟨f.instrument, signedFillQty f, f.price, 0, 0, f.timestamp_ns, 1, f.commission⟩
            hlk0 (by simpa [hsf] using hfq)
            (fun g hg => hall g (List.mem_cons_of_mem f hg))
        have hfold : (f :: rest).foldl pmOnFill pmInit = rest.foldl pmOnFill (pmOnFill pmInit f) := by
          simp [List.foldl_cons]
        rw [hfold, hlk2] at hlk'
        obtain rfl : pos2 = pos' := Option.some.inj hlk'
        have hqsum : pos2.quantity = ((f :: rest).map Fill.quantity).sum := by
          rw [hqty2, hsf]
          simp [List.map_cons, List.sum_cons]
        have hqsumpos : 0 < ((f :: rest).map Fill.quantity).sum := by
          have hnonneg : 0 ≤ (rest.map Fill.quantity).sum := by
            apply List.sum_nonneg
            intro x hx
            obtain ⟨g, hg, rfl⟩ := List.mem_map.mp hx
            exact le_of_lt (lt_of_lt_of_le hepspos (hall g (List.mem_cons_of_mem f hg)).2.2)
          simp only [List.map_cons, List.sum_cons]
          linarith
        refine ⟨hqsum, ?_⟩
        have hvsum : pos2.entry_price * pos2.quantity =
            ((f :: rest).map (fun g => g.quantity * g.price)).sum := by
          rw [hentry2, hsf]
          simp only [List.map_cons, List.sum_cons]
          ring
        rw [eq_div_iff (ne_of_gt hqsumpos), ← hqsum, hvsum]

/-- First buy for the C2 witness: 100 units at price 10. -/
def c2wFillA : Fill := ⟨"F1", "O1", "EURUSD", OrderSide.buy, 100, 10, 0, 0⟩

/-- Second buy for the C2 witness: 50 units at price 16. -/
def c2wFillB : Fill := ⟨"F2", "O2", "EURUSD", OrderSide.buy, 50, 16, 0, 0⟩

/-- Manager state after `c2wFillA`. -/
def c2wPm : PositionManager := pmOnFill pmInit c2wFillA

/-- Position held after `c2wFillA`. -/
def c2wPos : Position := ⟨"EURUSD", 100, 10, 0, 0, 0, 1, 0⟩

/-- Position held after both C2 witness fills: 150 units at entry 12. -/
def c2wPosFinal : Position := ⟨"EURUSD", 150, 12, 0, 0, 0, 2, 0⟩

/-- Witness for C2 at concrete inputs: a long 100 @ 10 receiving a buy of
50 @ 16 (entry becomes 12 = (100*10 + 50*16)/150), and the two-fill history
applied from a fresh manager. -/
theorem pm_waep_witness :
    (alookup c2wFillB.instrument c2wPm.positions = some c2wPos ∧
     (c2wPos.quantity * signedFillQty c2wFillB > 0 ∨ c2wPos.quantity = 0) ∧
     eps ≤ |c2wPos.quantity + signedFillQty c2wFillB| ∧
     (∃ pos', alookup c2wFillB.instrument (pmOnFill c2wPm c2wFillB).positions = some pos' ∧
        pos'.quantity = c2wPos.quantity + signedFillQty c2wFillB ∧
        pos'.entry_price =
          (c2wPos.quantity * c2wPos.entry_price + signedFillQty c2wFillB * c2wFillB.price) /
            (c2wPos.quantity + signedFillQty c2wFillB))) ∧
    ((∀ f ∈ [c2wFillA, c2wFillB], f.instrument = "EURUSD" ∧ f.side = OrderSide.buy ∧
        eps ≤ f.quantity) ∧
     alookup "EURUSD" ([c2wFillA, c2wFillB].foldl pmOnFill pmInit).positions =
        some c2wPosFinal ∧
     c2wPosFinal.quantity = ([c2wFillA, c2wFillB].map Fill.quantity).sum ∧
     c2wPosFinal.entry_price =
        ([c2wFillA, c2wFillB].map (fun f => f.quantity * f.price)).sum /
          ([c2wFillA, c2wFillB].map Fill.quantity).sum) := by
  have h1 : alookup c2wFillB.instrument c2wPm.positions = some c2wPos := by
    norm_num [c2wPm, c2wFillA, c2wFillB, c2wPos, pmOnFill, pmInit, alookup, aupdate,
      signedFillQty]
  have h2 : c2wPos.quantity * signedFillQty c2wFillB > 0 ∨ c2wPos.quantity = 0 :=
    Or.inl (by norm_num [c2wPos, c2wFillB, signedFillQty])
  have h3 : eps ≤ |c2wPos.quantity + signedFillQty c2wFillB| := by
    norm_num [c2wPos, c2wFillB, signedFillQty, eps]
  have hall : ∀ f ∈ [c2wFillA, c2wFillB],
      f.instrument = "EURUSD" ∧ f.side = OrderSide.buy ∧ eps ≤ f.quantity := by
    intro f hf
    simp only [List.mem_cons, List.not_mem_nil, or_false] at hf
    rcases hf with rfl | rfl
    · exact ⟨rfl, rfl, by norm_num [c2wFillA, eps]⟩
    · exact ⟨rfl, rfl, by norm_num [c2wFillB, eps]⟩
  have hlkfin : alookup "EURUSD" ([c2wFillA, c2wFillB].foldl pmOnFill pmInit).positions =
      some c2wPosFinal := by
    norm_num [c2wFillA, c2wFillB, c2wPosFinal, pmOnFill, pmInit, alookup, aupdate,
      signedFillQty, calculate_weighted_avg_price, eps]
  refine ⟨⟨h1, h2, h3, pm_waep.1 c2wPm c2wFillB c2wPos h1 h2 h3⟩,
          ⟨hall, hlkfin, pm_waep.2 "EURUSD" [c2wFillA, c2wFillB] hall c2wPosFinal hlkfin⟩⟩

/-- Zero-quantity fill used for the C5 counterexample. -/
def c5Fill : Fill := ⟨"F1", "O1", "EURUSD", OrderSide.buy, 0, 10, 0, 0⟩

/-- C5 fails as stated: `PositionManager::on_fill` contains no quantity
validation, so a fill with quantity 0 is not ignored — `total_fills_today`
is incremented and a position entry is created for the instrument. -/
theorem pm_zero_qty_counterexample :
    c5Fill.quantity ≤ 0 ∧
    pmInit.total_fills_today = 0 ∧
    (pmOnFill pmInit c5Fill).total_fills_today = 1 ∧
    alookup "EURUSD" (pmOnFill pmInit c5Fill).positions ≠ none := by
  refine ⟨le_refl 0, rfl, rfl, ?_⟩
  have hsome : alookup "EURUSD" (pmOnFill pmInit c5Fill).positions =
      some ⟨"EURUSD", 0, 10, 0, 0, 0, 1, 0⟩ := by
    norm_num [pmOnFill, pmInit, alookup, aupdate, c5Fill, signedFillQty]
  rw [hsome]
  simp

/-- C5 (amended): `on_fill` performs no quantity validation; a fill with
quantity ≤ 0 is processed like any other fill — `total_fills_today` is
incremented and a position entry for the fill's instrument exists afterwards
(created if absent, updated in place if present). -/
theorem pm_onFill_no_qty_validation (pm : PositionManager) (fill : Fill)
    (hq : fill.quantity ≤ 0) :
    (pmOnFill pm fill).total_fills_today = pm.total_fills_today + 1 ∧
    alookup fill.instrument (pmOnFill pm fill).positions ≠ none := by
  cases hlk : alookup fill.instrument pm.positions with
  | none =>
      simp only [pmOnFill, hlk]
      exact ⟨by trivial, by rw [alookup_aupdate_self]; simp⟩
  | some pos =>
      by_cases hc : pos.quantity * signedFillQty fill > 0 ∨ pos.quantity = 0
      · simp only [pmOnFill, hlk, if_pos hc]
        exact ⟨by trivial, by rw [alookup_aupdate_self]; simp⟩
      · simp only [pmOnFill, hlk, if_neg hc]
        exact ⟨by trivial, by rw [alookup_aupdate_self]; simp⟩

/-- Witness for the amended C5 at the concrete zero-quantity fill. -/
theorem pm_onFill_no_qty_validation_witness :
    c5Fill.quantity ≤ 0 ∧
    ((pmOnFill pmInit c5Fill).total_fills_today = pmInit.total_fills_today + 1 ∧
     alookup c5Fill.instrument (pmOnFill pmInit c5Fill).positions ≠ none) :=
  ⟨le_refl 0, pm_onFill_no_qty_validation pmInit c5Fill (le_refl 0)⟩

/-! ### C10: global realized PnL equals the sum over positions -/

/-- Operation alphabet of the position manager: `on_fill` and `reset_daily`. -/
inductive PMOp
  | fill (f : Fill)
  | resetDaily

/-- Apply one position-manager operation. -/
def pmStep (pm : PositionManager) : PMOp → PositionManager
  | PMOp.fill f => pmOnFill pm f
  | PMOp.resetDaily => pmResetDaily pm

/-- Sum of `realized_pnl` over all stored positions. -/
def sumRealized (pm : PositionManager) : ℚ :=
  (pm.positions.map (fun e => e.2.realized_pnl)).sum

theorem sum_aupdate_fresh (k : String) (v : Position) :
    ∀ l : List (String × Position), alookup k l = none →
      ((aupdate k v l).map (fun e => e.2.realized_pnl)).sum =
        (l.map (fun e => e.2.realized_pnl)).sum + v.realized_pnl := by
  intro l
  induction l with
  | nil => simp [aupdate]
  | cons hd tl ih =>
      intro h
      simp only [alookup] at h
      by_cases hk : hd.1 = k
      · simp [hk] at h
      · simp only [aupdate, if_neg hk, List.map_cons, List.sum_cons,
          ih (by simpa [hk] using h)]
        ring

theorem sum_aupdate_found (k : String) (v : Position) :
    ∀ (l : List (String × Position)) (pos : Position), alookup k l = some pos →
      ((aupdate k v l).map (fun e => e.2.realized_pnl)).sum + pos.realized_pnl =
        (l.map (fun e => e.2.realized_pnl)).sum + v.realized_pnl := by
  intro l
  induction l with
  | nil => intro pos h; simp [alookup] at h
  | cons hd tl ih =>
      intro pos h
      simp only [alookup] at h
      by_cases hk : hd.1 = k
      · rw [if_pos hk] at h
        obtain rfl : hd.2 = pos := Option.some.inj h
        simp only [aupdate, if_pos hk, List.map_cons, List.sum_cons]
        ring
      · rw [if_neg hk] at h
        simp only [aupdate, if_neg hk, List.map_cons, List.sum_cons]
        have hih := ih pos h
        linarith

/-- One step preserves the consistency of the global realized-PnL counter. -/
theorem pm_step_preserves_sum (pm : PositionManager) (op : PMOp)
    (hpm : pm.total_realized_pnl = sumRealized pm) :
    (pmStep pm op).total_realized_pnl = sumRealized (pmStep pm op) := by
  cases op with
  | resetDaily =>
      simp only [pmStep, pmResetDaily, sumRealized, List.map_map]
      induction pm.positions with
      | nil => simp
      | cons hd tl ih => simpa using ih
  | fill f =>
      simp only [pmStep]
      cases hlk : alookup f.instrument pm.positions with
      | none =>
          simp only [pmOnFill, hlk, sumRealized] at hpm ⊢
          rw [sum_aupdate_fresh _ _ _ hlk]
          simpa using hpm
      | some pos =>
          by_cases hc : pos.quantity * signedFillQty f > 0 ∨ pos.quantity = 0
          · simp only [pmOnFill, hlk, if_pos hc, sumRealized] at hpm ⊢
            have hfound := sum_aupdate_found f.instrument
              { pos with entry_price := calculate_weighted_avg_price
                           pos.quantity pos.entry_price (signedFillQty f) f.price
                         quantity := pos.quantity + signedFillQty f
                         last_update_ns := f.timestamp_ns
                         num_fills_today := pos.num_fills_today + 1
                         total_commission := pos.total_commission + f.commission }
              pm.positions pos hlk
            simp only at hfound
            linarith
          · simp only [pmOnFill, hlk, if_neg hc, sumRealized] at hpm ⊢
            have hfound := sum_aupdate_found f.instrument
              { pos with realized_pnl := pos.realized_pnl + calculate_realized_pnl
                           pos.quantity pos.entry_price (signedFillQty f) f.price
                         quantity := pos.quantity + signedFillQty f
                         entry_price := if (pos.quantity > 0 ∧
                             pos.quantity + signedFillQty f < 0) ∨
                             (pos.quantity < 0 ∧ pos.quantity + signedFillQty f > 0)
                           then f.price else pos.entry_price
                         last_update_ns := f.timestamp_ns
                         num_fills_today := pos.num_fills_today + 1
                         total_commission := pos.total_commission + f.commission }
              pm.positions pos hlk
            simp only at hfound
            linarith

/-- C10: in every state reachable from a fresh manager by a sequence of
`on_fill` and `reset_daily` operations, the global `total_realized_pnl_`
counter equals the sum of `realized_pnl` over all stored positions. -/
theorem pm_total_realized_consistent (ops : List PMOp) :
    (ops.foldl pmStep pmInit).total_realized_pnl =
      sumRealized (ops.foldl pmStep pmInit) := by
  suffices h : ∀ (os : List PMOp) (pm : PositionManager),
      pm.total_realized_pnl = sumRealized pm →
      (os.foldl pmStep pm).total_realized_pnl = sumRealized (os.foldl pmStep pm) by
    exact h ops pmInit (by simp [pmInit, sumRealized])
  intro os
  induction os with
  | nil => intro pm hpm; simpa using hpm
  | cons op rest ih =>
      intro pm hpm
      simpa using ih (pmStep pm op) (pm_step_preserves_sum pm op hpm)

/-! ### Risk manager (`src/cpp/src/risk/risk_manager.cpp`) -/

/-- `RiskLimits` (fields read by the risk manager code). -/
structure RiskLimits where
  max_position_size : ℚ
  max_total_exposure : ℚ
  max_daily_loss : ℚ
  max_drawdown_from_high : ℚ
  max_orders_per_minute : Nat
  max_orders_per_day : Nat
  max_order_size : ℚ
  bankroll : ℚ
  min_free_capital_pct : ℚ
deriving DecidableEq

/-- `OrderRequest` fields read by `check_order` (tif, strategy id, comment,
creation timestamp and the optional stop price are omitted: `check_order`
never reads them). -/
structure OrderRequest where
  order_id : String
  instrument : String
  side : OrderSide
  type : OrderType
  quantity : ℚ
  price : ℚ
deriving DecidableEq

/-- The distinct `result.reason` strings `RiskManager::check_order` can
produce, as an enumeration. -/
inductive RejectReason
  | tradingHalted | invalidQuantity | invalidLimitPrice | orderSizeExceeded
  | rateLimitExceeded | dailyOrderLimitExceeded | positionSizeExceeded
  | exposureLimitExceeded | dailyLossExceeded | insufficientFreeCapital | ok
deriving DecidableEq

/-- The two distinct strings the code can store in `halt_reason_`: the
daily-loss breach set at pre-trade (`check_order`, step 11) and the
drawdown-from-high breach set post-fill (`on_fill`). -/
inductive HaltTrigger | dailyLossBreach | drawdownBreach
deriving DecidableEq

/-- `RiskCheckResult`. -/
structure RiskCheckResult where
  allowed : Bool
  reason : RejectReason
  reserved_capital : ℚ
  new_exposure : ℚ
  new_position_size : ℚ
deriving DecidableEq

/-- State of a `RiskManager`.  `market_prices_` is not stored: every value
the code derives from it through the position manager (`get_quantity`,
`get_total_exposure`, realized+unrealized PnL) enters the model as an
explicit input of the operation that reads it. -/
structure RiskState where
  limits : RiskLimits
  daily_pnl : ℚ
  daily_high_pnl : ℚ
  daily_realized_pnl : ℚ
  orders_submitted_today : Nat
  orders_filled_today : Nat
  orders_rejected_today : Nat
  orders_cancelled_today : Nat
  recent_order_timestamps : List Int
  reserved_by_order : List (String × ℚ)
  halt_active : Bool
  halt_reason : Option HaltTrigger
deriving DecidableEq

/-- The `RiskManager(limits)` constructor. -/
def riskInit (limits : RiskLimits) : RiskState :=
  ⟨limits, 0, 0, 0, 0, 0, 0, 0, [], [], false, none⟩

/-- Increment `orders_rejected_today_` (done by every rejection branch of
`check_order`). -/
def riskReject (s : RiskState) : RiskState :=
  { s with orders_rejected_today := s.orders_rejected_today + 1 }

/-- The eviction step of `check_rate_limit`: `remove_if(now - ts >
one_minute_ns)` keeps exactly the timestamps with `now - ts ≤ 60 s`. -/
def evictOld (now : Int) (l : List Int) : List Int :=
  l.filter (fun ts => decide (now - ts ≤ oneMinuteNs))

/-- `RiskManager::check_rate_limit`: evicts old timestamps (a mutation of
`recent_order_timestamps_`) and reports whether the remaining count is below
`max_orders_per_minute`. -/
def check_rate_limit (s : RiskState) (now : Int) : RiskState × Bool :=
  ({ s with recent_order_timestamps := evictOld now s.recent_order_timestamps },
   decide ((evictOld now s.recent_order_timestamps).length <
     s.limits.max_orders_per_minute))

/-- `RiskManager::calculate_order_value`. -/
def calculate_order_value (order : OrderRequest) (price : ℚ) : ℚ :=
  |order.quantity * price|

/-- The signed order quantity computed at step 8 of `check_order`. -/
def signedOrderQty (order : OrderRequest) : ℚ :=
  (match order.side with | OrderSide.buy => 1 | OrderSide.sell => -1) * order.quantity

/-- The reference price of step 6: `MARKET` orders use the supplied current
price, everything else the order's own price. -/
def orderRefPrice (order : OrderRequest) (current_price : ℚ) : ℚ :=
  if order.type = OrderType.market then current_price else order.price

/-- Sum of reserved capital over `reserved_by_order_`. -/
def totalReserved (s : RiskState) : ℚ :=
  (s.reserved_by_order.map Prod.snd).sum

/-- `RiskManager::check_position_size_limit`. -/
def check_position_size_limit (s : RiskState) (new_qty : ℚ) : Bool :=
  decide (|new_qty| ≤ s.limits.max_position_size)

/-- `RiskManager::check_exposure_limit` (the exposure read from the position
manager enters as `pmExposure`). -/
def check_exposure_limit (s : RiskState) (pmExposure additional_exposure : ℚ) : Bool :=
  decide (pmExposure + totalReserved s + additional_exposure ≤
    s.limits.max_total_exposure)

/-- `RiskManager::check_daily_loss_limit`. -/
def check_daily_loss_limit (s : RiskState) : Bool :=
  decide (s.daily_pnl ≥ -s.limits.max_daily_loss)

/-- `RiskManager::check_order`, all twelve steps in source order.  `pmQty`
and `pmExposure` are the values returned by
`position_mgr_->get_quantity(order.instrument)` and
`position_mgr_->get_total_exposure(market_prices_)` (both 0 when no position
manager is attached); `now` is the wall-clock timestamp used by the rate
limiter. -/
def checkOrder (s : RiskState) (order : OrderRequest) (current_price : ℚ)
    (now : Int) (pmQty pmExposure : ℚ) : RiskState × RiskCheckResult :=
  if s.halt_active then
    (riskReject s, ⟨false, RejectReason.tradingHalted, 0, 0, 0⟩)
  else if order.quantity ≤ 0 then
    (riskReject s, ⟨false, RejectReason.invalidQuantity, 0, 0, 0⟩)
  else if order.type = OrderType.limit ∧ order.price ≤ 0 then
    (riskReject s, ⟨false, RejectReason.invalidLimitPrice, 0, 0, 0⟩)
  else if order.quantity > s.limits.max_order_size then
    (riskReject s, ⟨false, RejectReason.orderSizeExceeded, 0, 0, 0⟩)
  else if ¬ (check_rate_limit s now).2 then
    (riskReject (check_rate_limit s now).1,
     ⟨false, RejectReason.rateLimitExceeded, 0, 0, 0⟩)
  else if s.orders_submitted_today ≥ s.limits.max_orders_per_day then
    (riskReject (check_rate_limit s now).1,
     ⟨false, RejectReason.dailyOrderLimitExceeded, 0, 0, 0⟩)
  else if ¬ check_position_size_limit s (pmQty + signedOrderQty order) then
    (riskReject (check_rate_limit s now).1,
     ⟨false, RejectReason.positionSizeExceeded, 0, 0, |pmQty + signedOrderQty order|⟩)
  else if ¬ check_exposure_limit s pmExposure
      |signedOrderQty order * orderRefPrice order current_price| then
    (riskReject (check_rate_limit s now).1,
     ⟨false, RejectReason.exposureLimitExceeded, 0, 0, |pmQty + signedOrderQty order|⟩)
  else if ¬ check_daily_loss_limit s then
    ({ riskReject (check_rate_limit s now).1 with
         halt_active := true
         halt_reason := some HaltTrigger.dailyLossBreach },
     ⟨false, RejectReason.dailyLossExceeded, 0, 0, |pmQty + signedOrderQty order|⟩)
  else if s.limits.bankroll - (pmExposure + totalReserved s +
      calculate_order_value order (orderRefPrice order current_price)) <
      s.limits.bankroll * s.limits.min_free_capital_pct then
    (riskReject (check_rate_limit s now).1,
     ⟨false, RejectReason.insufficientFreeCapital, 0, 0, |pmQty + signedOrderQty order|⟩)
  else
    ({ (check_rate_limit s now).1 with
         reserved_by_order := aupdate order.order_id
           (calculate_order_value order (orderRefPrice order current_price))
           s.reserved_by_order
         orders_submitted_today := s.orders_submitted_today + 1
         recent_order_timestamps :=
           (check_rate_limit s now).1.recent_order_timestamps ++ [now] },
     ⟨true, RejectReason.ok,
      calculate_order_value order (orderRefPrice order current_price),
      pmExposure + calculate_order_value order (orderRefPrice order current_price),
      |pmQty + signedOrderQty order|⟩)

/-- `RiskManager::on_fill`.  `newDailyPnl` is the value
`position_mgr_->get_total_realized_pnl() + get_total_unrealized_pnl(...)`
written into `daily_pnl_` by `update_pnl` (pass the old `daily_pnl` to model
a detached position manager). -/
def riskOnFill (s : RiskState) (order_id : String) (newDailyPnl : ℚ) : RiskState :=
  let s1 := { s with orders_filled_today := s.orders_filled_today + 1
                     reserved_by_order := aerase order_id s.reserved_by_order
                     daily_pnl := newDailyPnl }
  let s2 := if s1.daily_pnl > s1.daily_high_pnl
            then { s1 with daily_high_pnl := s1.daily_pnl } else s1
  let drawdown_from_high := s2.daily_high_pnl - s2.daily_pnl
  if drawdown_from_high > s.limits.max_drawdown_from_high then
    { s2 with halt_active := true, halt_reason := some HaltTrigger.drawdownBreach }
  else s2

/-- `RiskManager::on_order_rejected`. -/
def riskOnOrderRejected (s : RiskState) (order_id : String) : RiskState :=
  { s with orders_rejected_today := s.orders_rejected_today + 1
           reserved_by_order := aerase order_id s.reserved_by_order }

/-- `RiskManager::on_order_cancelled`. -/
def riskOnOrderCancelled (s : RiskState) (order_id : String) : RiskState :=
  { s with orders_cancelled_today := s.orders_cancelled_today + 1
           reserved_by_order := aerase order_id s.reserved_by_order }

/-- `RiskManager::update_market_prices`: stores the price snapshot and
recomputes `daily_pnl_` from the position manager; the recomputed value
enters as `newDailyPnl`. -/
def riskUpdateMarketPrices (s : RiskState) (newDailyPnl : ℚ) : RiskState :=
  { s with daily_pnl := newDailyPnl }

/-- `RiskManager::reset_daily`. -/
def riskResetDaily (s : RiskState) : RiskState :=
  { s with daily_pnl := 0, daily_high_pnl := 0, daily_realized_pnl := 0,
           orders_submitted_today := 0, orders_filled_today := 0,
           orders_rejected_today := 0, orders_cancelled_today := 0,
           recent_order_timestamps := [], reserved_by_order := [],
           halt_active := false, halt_reason := none }

/-- Operation alphabet of the risk manager, excluding `reset_daily`. -/
inductive RiskOp
  | check (order : OrderRequest) (current_price : ℚ) (now : Int) (pmQty pmExposure : ℚ)
  | fill (order_id : String) (newDailyPnl : ℚ)
  | rejected (order_id : String)
  | cancelled (order_id : String)
  | updatePrices (newDailyPnl : ℚ)

/-- Constructor facts about `OrderType` used to evaluate the validation
branches at concrete orders. -/
theorem otMarketNeLimit : (OrderType.market = OrderType.limit) = False := by decide

/-- Market equals itself (for reducing the reference-price branch). -/
theorem otMarketEqMarket : (OrderType.market = OrderType.market) = True := by decide

/-- StopLimit is not Limit: the price validation does not fire for it. -/
theorem otStopLimitNeLimit : (OrderType.stopLimit = OrderType.limit) = False := by decide

/-- StopLimit is not Market: the reference price is the order price. -/
theorem otStopLimitNeMarket : (OrderType.stopLimit = OrderType.market) = False := by decide

/-- Apply one risk-manager operation (state part only). -/
def riskStep (s : RiskState) : RiskOp → RiskState
  | RiskOp.check o cp now pq pe => (checkOrder s o cp now pq pe).1
  | RiskOp.fill oid pnl => riskOnFill s oid pnl
  | RiskOp.rejected oid => riskOnOrderRejected s oid
  | RiskOp.cancelled oid => riskOnOrderCancelled s oid
  | RiskOp.updatePrices pnl => riskUpdateMarketPrices s pnl

/-- One operation never clears an active halt. -/
theorem risk_halt_monotone_step (s : RiskState) (op : RiskOp)
    (h : s.halt_active = true) : (riskStep s op).halt_active = true := by
  cases op with
  | check o cp now pq pe =>
      simp [riskStep, checkOrder, h, riskReject]
  | fill oid pnl =>
      simp only [riskStep, riskOnFill]
      split_ifs <;> simp [h]
  | rejected oid => simpa [riskStep, riskOnOrderRejected] using h
  | cancelled oid => simpa [riskStep, riskOnOrderCancelled] using h
  | updatePrices pnl => simpa [riskStep, riskUpdateMarketPrices] using h

/-- C4 (amended): once `halt_active` is true it stays true under every
sequence of `check_order` / `on_fill` / `on_order_rejected` /
`on_order_cancelled` / `update_market_prices` operations, and `reset_daily`
clears it.  (The second half of the original claim — that the first-observed
halt reason is preserved — is false, see the counterexample.) -/
theorem risk_halt_monotone (s : RiskState) (ops : List RiskOp)
    (h : s.halt_active = true) :
    (ops.foldl riskStep s).halt_active = true ∧
    (riskResetDaily s).halt_active = false := by
  constructor
  · induction ops generalizing s with
    | nil => simpa using h
    | cons op rest ih =>
        simpa using ih (riskStep s op) (risk_halt_monotone_step s op h)
  · rfl

/-- Limits used by the risk-manager witnesses and counterexamples:
`max_daily_loss = 10`, `max_drawdown_from_high = 50`, everything else
generous. -/
def c4Limits : RiskLimits := ⟨100, 1000000, 10, 50, 100, 1000, 100, 100000, 0⟩

/-- Small market order used by the C4 counterexample. -/
def c4Order : OrderRequest :=
  ⟨"O1", "EURUSD", OrderSide.buy, OrderType.market, 1, 0⟩

/-- State after a market-price update put `daily_pnl` at −20. -/
def c4S1 : RiskState := riskUpdateMarketPrices (riskInit c4Limits) (-20)

/-- State after `check_order` then trips the daily-loss halt. -/
def c4S2 : RiskState := (checkOrder c4S1 c4Order 1 0 0 0).1

/-- Witness for the amended C4: applied at the concrete halted state
`c4S2`, under one further fill operation. -/
theorem risk_halt_monotone_witness :
    c4S2.halt_active = true ∧
    (([RiskOp.fill "O1" (-200)].foldl riskStep c4S2).halt_active = true ∧
     (riskResetDaily c4S2).halt_active = false) := by
  have h : c4S2.halt_active = true := by
    norm_num [c4S2, c4S1, c4Limits, c4Order, riskInit, riskUpdateMarketPrices,
      checkOrder, riskReject, evictOld, check_rate_limit, calculate_order_value,
      signedOrderQty, orderRefPrice, totalReserved, check_position_size_limit,
      check_exposure_limit, check_daily_loss_limit, otMarketNeLimit, otMarketEqMarket]
  exact ⟨h, risk_halt_monotone c4S2 [RiskOp.fill "O1" (-200)] h⟩

/-- C4 fails as stated in its reason-preservation half: from the halted state
`c4S2` (halted with the daily-loss reason), a fill that breaches the
drawdown-from-high limit overwrites `halt_reason_` with the drawdown reason
instead of preserving the first-observed one. -/
theorem risk_halt_reason_counterexample :
    c4S2.halt_active = true ∧
    c4S2.halt_reason = some HaltTrigger.dailyLossBreach ∧
    (riskOnFill c4S2 "O1" (-200)).halt_active = true ∧
    (riskOnFill c4S2 "O1" (-200)).halt_reason = some HaltTrigger.drawdownBreach := by
  have h2 : c4S2 = { riskInit c4Limits with
      daily_pnl := -20, orders_rejected_today := 1,
      halt_active := true, halt_reason := some HaltTrigger.dailyLossBreach } := by
    norm_num [c4S2, c4S1, c4Limits, c4Order, riskInit, riskUpdateMarketPrices,
      checkOrder, riskReject, evictOld, check_rate_limit, calculate_order_value,
      signedOrderQty, orderRefPrice, totalReserved, check_position_size_limit,
      check_exposure_limit, check_daily_loss_limit, otMarketNeLimit, otMarketEqMarket]
  refine ⟨by rw [h2], by rw [h2], ?_, ?_⟩ <;>
    · rw [h2]
      norm_num [riskOnFill, riskInit, c4Limits, aerase]

/-- C6 (amended): when trading is not halted, an order with `quantity ≤ 0`
is rejected with the invalid-quantity reason, and a Limit order with
`price ≤ 0` is rejected with the invalid-limit-price reason; in both cases
the only state change is the rejected-orders counter (no reservation is
created, no rate-limit timestamp is recorded, no later risk rule runs).
StopLimit orders are not covered by the price validation (see the
counterexample). -/
theorem risk_checkOrder_validation
    (s : RiskState) (o : OrderRequest) (cp : ℚ) (now : Int) (pq pe : ℚ)
    (hhalt : s.halt_active = false) :
    (o.quantity ≤ 0 →
      checkOrder s o cp now pq pe =
        (riskReject s, ⟨false, RejectReason.invalidQuantity, 0, 0, 0⟩)) ∧
    (0 < o.quantity → o.type = OrderType.limit → o.price ≤ 0 →
      checkOrder s o cp now pq pe =
        (riskReject s, ⟨false, RejectReason.invalidLimitPrice, 0, 0, 0⟩)) := by
  constructor
  · intro hq
    simp [checkOrder, hhalt, hq]
  · intro hq htype hprice
    simp [checkOrder, hhalt, not_le.mpr hq, htype, hprice]

/-- Invalid-quantity order for the C6 witness. -/
def c6BadQty : OrderRequest :=
  ⟨"O2", "EURUSD", OrderSide.buy, OrderType.market, -5, 0⟩

/-- Invalid-price limit order for the C6 witness. -/
def c6BadPrice : OrderRequest :=
  ⟨"O3", "EURUSD", OrderSide.buy, OrderType.limit, 1, -3⟩

/-- Witness for the amended C6 at concrete orders. -/
theorem risk_checkOrder_validation_witness :
    (riskInit c4Limits).halt_active = false ∧
    c6BadQty.quantity ≤ 0 ∧
    checkOrder (riskInit c4Limits) c6BadQty 1 0 0 0 =
      (riskReject (riskInit c4Limits), ⟨false, RejectReason.invalidQuantity, 0, 0, 0⟩) ∧
    (0 < c6BadPrice.quantity ∧ c6BadPrice.type = OrderType.limit ∧ c6BadPrice.price ≤ 0) ∧
    checkOrder (riskInit c4Limits) c6BadPrice 1 0 0 0 =
      (riskReject (riskInit c4Limits), ⟨false, RejectReason.invalidLimitPrice, 0, 0, 0⟩) := by
  have hhalt : (riskInit c4Limits).halt_active = false := rfl
  have hq : c6BadQty.quantity ≤ 0 := by norm_num [c6BadQty]
  have hp1 : (0 : ℚ) < c6BadPrice.quantity := by norm_num [c6BadPrice]
  have hp2 : c6BadPrice.type = OrderType.limit := rfl
  have hp3 : c6BadPrice.price ≤ 0 := by norm_num [c6BadPrice]
  exact ⟨hhalt, hq,
    (risk_checkOrder_validation (riskInit c4Limits) c6BadQty 1 0 0 0 hhalt).1 hq,
    ⟨hp1, hp2, hp3⟩,
    (risk_checkOrder_validation (riskInit c4Limits) c6BadPrice 1 0 0 0 hhalt).2 hp1 hp2 hp3⟩

/-! ### C3: reservation conservation -/

/-- Track, alongside the risk state, the ids of orders approved by
`check_order` whose reservation has not yet been released by the first
`on_fill` / `on_order_rejected` / `on_order_cancelled` for that id. -/
def runTrack : RiskState × List String → RiskOp → RiskState × List String
  | (s, live), RiskOp.check o cp now pq pe =>
      let r := checkOrder s o cp now pq pe
      (r.1, if r.2.allowed then live ++ [o.order_id] else live)
  | (s, live), RiskOp.fill oid pnl => (riskOnFill s oid pnl, lerase oid live)
  | (s, live), RiskOp.rejected oid => (riskOnOrderRejected s oid, lerase oid live)
  | (s, live), RiskOp.cancelled oid => (riskOnOrderCancelled s oid, lerase oid live)
  | (s, live), RiskOp.updatePrices pnl => (riskUpdateMarketPrices s pnl, live)

/-- Valid histories: every order id approved by `check_order` is fresh (no
reservation already keyed by it) — the spec makes order ids globally unique
within a process run. -/
def ValidHist : RiskState → List RiskOp → Prop
  | _, [] => True
  | s, op :: rest =>
      (match op with
       | RiskOp.check o cp now pq pe =>
           (checkOrder s o cp now pq pe).2.allowed = true →
             alookup o.order_id s.reserved_by_order = none
       | _ => True) ∧ ValidHist (riskStep s op) rest

/-- Master branch analysis of `check_order`: a call either rejects — leaving
the limits and the reservations untouched and either leaving the rate-limit
timestamps untouched (steps 1–4) or merely evicting stale ones (steps 5–12) —
or approves, adding exactly one reservation keyed by the order id and
appending `now` to the evicted timestamp list, which the rate limiter had
verified to hold fewer than `max_orders_per_minute` entries. -/
theorem checkOrder_master (s : RiskState) (o : OrderRequest) (cp : ℚ) (now : Int)
    (pq pe : ℚ) :
    ((checkOrder s o cp now pq pe).2.allowed = false ∧
     (checkOrder s o cp now pq pe).1.limits = s.limits ∧
     (checkOrder s o cp now pq pe).1.reserved_by_order = s.reserved_by_order ∧
     ((checkOrder s o cp now pq pe).1.recent_order_timestamps =
        s.recent_order_timestamps ∨
      (checkOrder s o cp now pq pe).1.recent_order_timestamps =
        evictOld now s.recent_order_timestamps)) ∨
    ((checkOrder s o cp now pq pe).2.allowed = true ∧
     (checkOrder s o cp now pq pe).1.limits = s.limits ∧
     (∃ v, (checkOrder s o cp now pq pe).1.reserved_by_order =
        aupdate o.order_id v s.reserved_by_order) ∧
     (checkOrder s o cp now pq pe).1.recent_order_timestamps =
        evictOld now s.recent_order_timestamps ++ [now] ∧
     (evictOld now s.recent_order_timestamps).length <
        s.limits.max_orders_per_minute) := by
  unfold checkOrder
  by_cases h1 : s.halt_active = true
  · simp only [if_pos h1]
    exact Or.inl ⟨by trivial, by trivial, by trivial, Or.inl (by trivial)⟩
  · simp only [if_neg h1]
    by_cases h2 : o.quantity ≤ 0
    · simp only [if_pos h2]
      exact Or.inl ⟨by trivial, by trivial, by trivial, Or.inl (by trivial)⟩
    · simp only [if_neg h2]
      by_cases h3 : o.type = OrderType.limit ∧ o.price ≤ 0
      · simp only [if_pos h3]
        exact Or.inl ⟨by trivial, by trivial, by trivial, Or.inl (by trivial)⟩
      · simp only [if_neg h3]
        by_cases h4 : o.quantity > s.limits.max_order_size
        · simp only [if_pos h4]
          exact Or.inl ⟨by trivial, by trivial, by trivial, Or.inl (by trivial)⟩
        · simp only [if_neg h4]
          by_cases h5 : ¬ (check_rate_limit s now).2 = true
          · simp only [if_pos h5]
            exact Or.inl ⟨by trivial, by trivial, by trivial, Or.inr (by trivial)⟩
          · simp only [if_neg h5]
            by_cases h6 : s.orders_submitted_today ≥ s.limits.max_orders_per_day
            · simp only [if_pos h6]
              exact Or.inl ⟨by trivial, by trivial, by trivial, Or.inr (by trivial)⟩
            · simp only [if_neg h6]
              by_cases h7 : ¬ check_position_size_limit s (pq + signedOrderQty o) = true
              · simp only [if_pos h7]
                exact Or.inl ⟨by trivial, by trivial, by trivial, Or.inr (by trivial)⟩
              · simp only [if_neg h7]
                by_cases h8 : ¬ check_exposure_limit s pe
                    |signedOrderQty o * orderRefPrice o cp| = true
                · simp only [if_pos h8]
                  exact Or.inl ⟨by trivial, by trivial, by trivial, Or.inr (by trivial)⟩
                · simp only [if_neg h8]
                  by_cases h9 : ¬ check_daily_loss_limit s = true
                  · simp only [if_pos h9]
                    exact Or.inl ⟨by trivial, by trivial, by trivial, Or.inr (by trivial)⟩
                  · simp only [if_neg h9]
                    by_cases h10 : s.limits.bankroll - (pe + totalReserved s +
                        calculate_order_value o (orderRefPrice o cp)) <
                        s.limits.bankroll * s.limits.min_free_capital_pct
                    · simp only [if_pos h10]
                      exact Or.inl ⟨by trivial, by trivial, by trivial, Or.inr (by trivial)⟩
                    · simp only [if_neg h10]
                      exact Or.inr ⟨by trivial, by trivial, ⟨_, by trivial⟩, by trivial,
                        of_decide_eq_true (not_not.mp h5)⟩

/-- A `check_order` call either rejects and leaves `reserved_by_order_`
untouched, or approves and adds exactly one binding keyed by the order id. -/
theorem checkOrder_reserved (s : RiskState) (o : OrderRequest) (cp : ℚ)
    (now : Int) (pq pe : ℚ) :
    ((checkOrder s o cp now pq pe).2.allowed = false ∧
     (checkOrder s o cp now pq pe).1.reserved_by_order = s.reserved_by_order) ∨
    ((checkOrder s o cp now pq pe).2.allowed = true ∧
     ∃ v, (checkOrder s o cp now pq pe).1.reserved_by_order =
        aupdate o.order_id v s.reserved_by_order) := by
  rcases checkOrder_master s o cp now pq pe with ⟨ha, _, hres, _⟩ | ⟨ha, _, hres, _⟩
  · exact Or.inl ⟨ha, hres⟩
  · exact Or.inr ⟨ha, hres⟩

/-- The state component of `runTrack` is the ordinary risk step. -/
theorem runTrack_state (s : RiskState) (live : List String) (op : RiskOp) :
    (runTrack (s, live) op).1 = riskStep s op := by
  cases op <;> rfl

/-- One tracked step preserves "reservation keys = approved-but-unreleased
order ids". -/
theorem runTrack_step_invariant (s : RiskState) (live : List String) (op : RiskOp)
    (h : s.reserved_by_order.map Prod.fst = live)
    (hop : match op with
           | RiskOp.check o cp now pq pe =>
               (checkOrder s o cp now pq pe).2.allowed = true →
                 alookup o.order_id s.reserved_by_order = none
           | _ => True) :
    (runTrack (s, live) op).1.reserved_by_order.map Prod.fst =
      (runTrack (s, live) op).2 := by
  cases op with
  | check o cp now pq pe =>
      rcases checkOrder_reserved s o cp now pq pe with ⟨hna, hres⟩ | ⟨ha, v, hres⟩
      · simp [runTrack, hna, hres, h]
      · have hfresh : alookup o.order_id s.reserved_by_order = none := hop ha
        simp [runTrack, ha, hres, aupdate_keys_fresh _ _ _ hfresh, h]
  | fill oid pnl =>
      have hres : (riskOnFill s oid pnl).reserved_by_order =
          aerase oid s.reserved_by_order := by
        simp only [riskOnFill]
        split_ifs <;> rfl
      simp [runTrack, hres, aerase_keys, h]
  | rejected oid =>
      simp [runTrack, riskOnOrderRejected, aerase_keys, h]
  | cancelled oid =>
      simp [runTrack, riskOnOrderCancelled, aerase_keys, h]
  | updatePrices pnl =>
      simpa [runTrack, riskUpdateMarketPrices] using h

/-- C3: over every valid operation history from a fresh risk manager, the
keys of `reserved_by_order_` are exactly the ids of orders approved by
`check_order` and not yet released by the first `on_fill` /
`on_order_rejected` / `on_order_cancelled` for that id (so exactly one
reservation is created per approval and released by the first such event),
and in particular the number of active reservations equals the number of
approved-but-unreleased orders. -/
theorem risk_reservation_conservation (limits : RiskLimits) (ops : List RiskOp)
    (hvalid : ValidHist (riskInit limits) ops) :
    (ops.foldl runTrack (riskInit limits, [])).1.reserved_by_order.map Prod.fst =
      (ops.foldl runTrack (riskInit limits, [])).2 ∧
    (ops.foldl runTrack (riskInit limits, [])).1.reserved_by_order.length =
      (ops.foldl runTrack (riskInit limits, [])).2.length := by
  suffices h : ∀ (os : List RiskOp) (s : RiskState) (live : List String),
      s.reserved_by_order.map Prod.fst = live → ValidHist s os →
      (os.foldl runTrack (s, live)).1.reserved_by_order.map Prod.fst =
        (os.foldl runTrack (s, live)).2 by
    have hmain := h ops (riskInit limits) [] (by simp [riskInit]) hvalid
    refine ⟨hmain, ?_⟩
    calc (ops.foldl runTrack (riskInit limits, [])).1.reserved_by_order.length
        = ((ops.foldl runTrack (riskInit limits, [])).1.reserved_by_order.map
            Prod.fst).length := by rw [List.length_map]
      _ = (ops.foldl runTrack (riskInit limits, [])).2.length := by rw [hmain]
  intro os
  induction os with
  | nil => intro s live h _; simpa using h
  | cons op rest ih =>
      intro s live h hv
      obtain ⟨hop, hvrest⟩ := hv
      have hstep := runTrack_step_invariant s live op h hop
      have hstate := runTrack_state s live op
      have := ih (runTrack (s, live) op).1 (runTrack (s, live) op).2 hstep
        (by rw [hstate]; exact hvrest)
      simpa [List.foldl_cons] using this

/-- Concrete history for the C3 witness: approve `"O1"`, fill it, approve
`"O2"`. -/
def c3Ops : List RiskOp :=
  [RiskOp.check ⟨"O1", "EURUSD", OrderSide.buy, OrderType.market, 1, 0⟩ 1 0 0 0,
   RiskOp.fill "O1" 0,
   RiskOp.check ⟨"O2", "EURUSD", OrderSide.buy, OrderType.market, 1, 0⟩ 1 1 0 0]

/-- Witness for C3 at the concrete three-operation history. -/
theorem risk_reservation_conservation_witness :
    ValidHist (riskInit c4Limits) c3Ops ∧
    ((c3Ops.foldl runTrack (riskInit c4Limits, [])).1.reserved_by_order.map Prod.fst =
      (c3Ops.foldl runTrack (riskInit c4Limits, [])).2 ∧
     (c3Ops.foldl runTrack (riskInit c4Limits, [])).1.reserved_by_order.length =
      (c3Ops.foldl runTrack (riskInit c4Limits, [])).2.length) := by
  have hvalid : ValidHist (riskInit c4Limits) c3Ops := by
    refine ⟨fun _ => rfl, by trivial, fun _ => ?_, by trivial⟩
    norm_num [riskStep, riskInit, c4Limits, checkOrder, riskReject, evictOld,
      check_rate_limit, calculate_order_value, signedOrderQty, orderRefPrice,
      totalReserved, check_position_size_limit, check_exposure_limit,
      check_daily_loss_limit, riskOnFill, aerase, alookup, aupdate,
      otMarketNeLimit, otMarketEqMarket]
  exact ⟨hvalid, risk_reservation_conservation c4Limits c3Ops hvalid⟩

/-! ### C9: rolling-window rate limit -/

/-- One `check_order` call with its external inputs. -/
structure RLCall where
  order : OrderRequest
  current_price : ℚ
  now : Int
  pmQty : ℚ
  pmExposure : ℚ

/-- Run one `check_order` call, recording the timestamp when it approves. -/
def rlStep : RiskState × List Int → RLCall → RiskState × List Int
  | (s, apps), c =>
      let r := checkOrder s c.order c.current_price c.now c.pmQty c.pmExposure
      (r.1, if r.2.allowed then apps ++ [c.now] else apps)

/-- Recency predicate of the rate limiter at reference time `t`. -/
def recentP (t : Int) : Int → Bool := fun ts => decide (t - ts ≤ oneMinuteNs)

/-- Membership in the closed rolling window `[w, w + 60 s]`. -/
def winP (w : Int) : Int → Bool :=
  fun ts => decide (w ≤ ts) && decide (ts ≤ w + oneMinuteNs)

/-- Eviction at time `now` never drops a timestamp still recent at any later
reference time `t ≥ now`. -/
theorem countP_recentP_evictOld (now t : Int) (h : now ≤ t) (l : List Int) :
    (evictOld now l).countP (recentP t) = l.countP (recentP t) := by
  unfold evictOld
  rw [List.countP_filter]
  apply List.countP_congr
  intro a _
  by_cases hr : t - a ≤ oneMinuteNs
  · have hnow : now - a ≤ oneMinuteNs := by omega
    simp [recentP, hr, hnow]
  · simp [recentP, hr]

/-- Induction core for C9: runs the calls in time order while maintaining
(1) every approval time still recent at a future reference time is counted
by the stored timestamp list, and (2) every rolling window holds at most `N`
approvals. -/
theorem rl_window_aux (N : Nat) :
    ∀ (calls : List RLCall) (s : RiskState) (apps : List Int) (tlb : Int),
      s.limits.max_orders_per_minute = N →
      (∀ c ∈ calls, tlb ≤ c.now) →
      List.Pairwise (· ≤ ·) (calls.map RLCall.now) →
      (∀ t : Int, tlb ≤ t →
        apps.countP (recentP t) ≤ s.recent_order_timestamps.countP (recentP t)) →
      (∀ w : Int, apps.countP (winP w) ≤ N) →
      ∀ w : Int, (calls.foldl rlStep (s, apps)).2.countP (winP w) ≤ N := by
  intro calls
  induction calls with
  | nil =>
      intro s apps tlb _ _ _ _ hA w
      simpa using hA w
  | cons c rest ih =>
      intro s apps tlb hN htlb hpair hsub hA w
      have htlbc : tlb ≤ c.now := htlb c (List.mem_cons_self c rest)
      obtain ⟨hrest, hpair'⟩ : (∀ a ∈ rest, c.now ≤ RLCall.now a) ∧
          List.Pairwise (· ≤ ·) (rest.map RLCall.now) := by simpa using hpair
      rcases checkOrder_master s c.order c.current_price c.now c.pmQty c.pmExposure
        with ⟨hna, hlim, _, hts⟩ | ⟨ha, hlim, _, hts, hcnt⟩
      · have hstep : rlStep (s, apps) c =
            ((checkOrder s c.order c.current_price c.now c.pmQty c.pmExposure).1,
             apps) := by
          simp [rlStep, hna]
        rw [List.foldl_cons, hstep]
        refine ih _ apps c.now (by rw [hlim, hN]) hrest hpair' ?_ hA w
        intro t ht
        rcases hts with hts | hts
        · rw [hts]
          exact hsub t (le_trans htlbc ht)
        · rw [hts, countP_recentP_evictOld c.now t ht]
          exact hsub t (le_trans htlbc ht)
      · have hstep : rlStep (s, apps) c =
            ((checkOrder s c.order c.current_price c.now c.pmQty c.pmExposure).1,
             apps ++ [c.now]) := by
          simp [rlStep, ha]
        rw [List.foldl_cons, hstep]
        refine ih _ (apps ++ [c.now]) c.now (by rw [hlim, hN]) hrest hpair' ?_ ?_ w
        · intro t ht
          rw [hts, List.countP_append, List.countP_append,
            countP_recentP_evictOld c.now t ht]
          have h1 := hsub t (le_trans htlbc ht)
          omega
        · intro w'
          rw [List.countP_append]
          by_cases hw : winP w' c.now = true
          · have hmono : apps.countP (winP w') ≤ apps.countP (recentP c.now) := by
              apply List.countP_mono_left
              intro a _ hwa
              simp only [winP, Bool.and_eq_true, decide_eq_true_eq] at hwa hw
              simp only [recentP, decide_eq_true_eq]
              omega
            have h2 : apps.countP (recentP c.now) ≤
                s.recent_order_timestamps.countP (recentP c.now) := hsub c.now htlbc
            have h3 : s.recent_order_timestamps.countP (recentP c.now) =
                (evictOld c.now s.recent_order_timestamps).countP (recentP c.now) :=
              (countP_recentP_evictOld c.now c.now le_rfl _).symm
            have h4 : (evictOld c.now s.recent_order_timestamps).countP (recentP c.now) ≤
                (evictOld c.now s.recent_order_timestamps).length :=
              List.countP_le_length _
            rw [hN] at hcnt
            have h5 : ([c.now].countP (winP w')) ≤ 1 := by
              simpa using List.countP_le_length (l := [c.now]) (winP w')
            omega
          · have h0 : ([c.now].countP (winP w')) = 0 := by
              simp [List.countP, List.countP.go, hw]
            rw [h0]
            simpa using hA w'

/-- C9: starting from a fresh risk manager, for every sequence of
`check_order` calls whose wall-clock timestamps are non-decreasing, every
closed rolling window `[w, w + 60 s]` contains at most
`max_orders_per_minute` approval timestamps. -/
theorem risk_rate_limit_window (limits : RiskLimits) (calls : List RLCall)
    (hpair : List.Pairwise (· ≤ ·) (calls.map RLCall.now)) (w : Int) :
    (calls.foldl rlStep (riskInit limits, [])).2.countP (winP w) ≤
      limits.max_orders_per_minute := by
  cases calls with
  | nil => simp
  | cons c rest =>
      refine rl_window_aux limits.max_orders_per_minute (c :: rest)
        (riskInit limits) [] c.now rfl ?_ hpair ?_ ?_ w
      · obtain ⟨hhead, _⟩ : (∀ a ∈ rest, c.now ≤ RLCall.now a) ∧
            List.Pairwise (· ≤ ·) (rest.map RLCall.now) := by simpa using hpair
        intro c' hc'
        rcases List.mem_cons.mp hc' with rfl | hc'
        · exact le_refl _
        · exact hhead c' hc'
      · intro t _
        simp [riskInit]
      · intro w'
        simp

/-- First call for the C9 witness, at time 0. -/
def c9Call1 : RLCall :=
  ⟨⟨"O1", "EURUSD", OrderSide.buy, OrderType.market, 1, 0⟩, 1, 0, 0, 0⟩

/-- Second call for the C9 witness, at time 5. -/
def c9Call2 : RLCall :=
  ⟨⟨"O2", "EURUSD", OrderSide.buy, OrderType.market, 1, 0⟩, 1, 5, 0, 0⟩

/-- Witness for C9 at the concrete two-call history and window start 0. -/
theorem risk_rate_limit_window_witness :
    List.Pairwise (· ≤ ·) ([c9Call1, c9Call2].map RLCall.now) ∧
    ([c9Call1, c9Call2].foldl rlStep (riskInit c4Limits, [])).2.countP (winP 0) ≤
      c4Limits.max_orders_per_minute := by
  have hp : List.Pairwise (· ≤ ·) ([c9Call1, c9Call2].map RLCall.now) := by
    simp [c9Call1, c9Call2]
  exact ⟨hp, risk_rate_limit_window c4Limits [c9Call1, c9Call2] hp 0⟩

/-- StopLimit order with a non-positive limit price for the C6
counterexample. -/
def c6StopLimit : OrderRequest :=
  ⟨"O4", "EURUSD", OrderSide.buy, OrderType.stopLimit, 1, -1⟩

/-- C6 fails as stated for StopLimit orders: `check_order` validates the
price only for `OrderType::LIMIT`, so a StopLimit order with price −1 passes
validation, is approved, and a reservation is created for it. -/
theorem risk_stop_limit_price_counterexample :
    c6StopLimit.type = OrderType.stopLimit ∧
    c6StopLimit.price ≤ 0 ∧
    (checkOrder (riskInit c4Limits) c6StopLimit 1 0 0 0).2.allowed = true ∧
    (checkOrder (riskInit c4Limits) c6StopLimit 1 0 0 0).1.reserved_by_order =
      [("O4", 1)] := by
  refine ⟨rfl, by norm_num [c6StopLimit], ?_, ?_⟩ <;>
    norm_num [checkOrder, riskInit, c4Limits, c6StopLimit, riskReject, evictOld,
      check_rate_limit, calculate_order_value, signedOrderQty, orderRefPrice,
      totalReserved, check_position_size_limit, check_exposure_limit,
      check_daily_loss_limit, aupdate, oneMinuteNs, otStopLimitNeLimit,
      otStopLimitNeMarket]


/-! ### Execution engine (`src/cpp/src/execution/execution_engine.cpp`) -/

/-- `OrderUpdate` (the optional exchange order id is never read by the
engine's state machine). -/
structure OrderUpdate where
  order_id : String
  status : OrderStatus
  filled_qty : ℚ
  remaining_qty : ℚ
  avg_fill_price : ℚ
  reason : String
  timestamp_ns : Int
deriving DecidableEq

/-- `ExecutionEngine::OrderState` (per-order tracking entry). -/
structure OrderState where
  request : OrderRequest
  current_status : OrderUpdate
  provider_name : String
  submit_timestamp_ns : Int
  last_update_ns : Int
deriving DecidableEq

/-- Engine state: the active-orders map, the completed-orders history, and
the stats fields touched by `on_fill` and `finalize_order`.  Providers,
Redis and callbacks hold no order state; the callback fan-out is modelled as
the list of updates emitted per call. -/
structure EngineState where
  active_orders : List (String × OrderState)
  completed_orders : List (String × OrderState)
  stats_total_orders_filled : Nat
  stats_total_volume_traded : ℚ
  stats_last_fill_timestamp_ns : Int
  stats_active_orders : Int
deriving DecidableEq

/-- The terminal-state test in `update_order_state`. -/
def isTerminalStatus (st : OrderStatus) : Bool :=
  decide (st = OrderStatus.filled ∨ st = OrderStatus.cancelled ∨
    st = OrderStatus.rejected ∨ st = OrderStatus.error ∨ st = OrderStatus.expired)

/-- The key `completed_orders_.begin()` points to: the least key of the
ordered `std::map`. -/
def minKey : List (String × OrderState) → Option String
  | [] => none
  | (k, _) :: rest =>
      match minKey rest with
      | none => some k
      | some m => if k < m then some k else some m

/-- `completed_orders_.erase(completed_orders_.begin())`. -/
def eraseMinKey (l : List (String × OrderState)) : List (String × OrderState) :=
  match minKey l with
  | none => l
  | some k => aerase k l

/-- `ExecutionEngine::finalize_order`: move the entry from `active_orders_`
to `completed_orders_`, decrement the active counter, and cap the history at
1000 entries by dropping the oldest key. -/
def finalizeOrder (e : EngineState) (order_id : String) : EngineState :=
  match alookup order_id e.active_orders with
  | none => e
  | some st =>
      let completed := aupdate order_id st e.completed_orders
      { e with active_orders := aerase order_id e.active_orders
               completed_orders :=
                 if completed.length > 1000 then eraseMinKey completed else completed
               stats_active_orders := e.stats_active_orders - 1 }

/-- `ExecutionEngine::update_order_state`. -/
def update_order_state (e : EngineState) (u : OrderUpdate) : EngineState :=
  match alookup u.order_id e.active_orders with
  | none => e
  | some st =>
      let st2 := { st with current_status := u, last_update_ns := u.timestamp_ns }
      let e2 := { e with active_orders := aupdate u.order_id st2 e.active_orders }
      if isTerminalStatus u.status then finalizeOrder e2 u.order_id else e2

/-- `ExecutionEngine::on_order_update`: updates the tracking state,
publishes, then unconditionally invokes every registered order callback
with the update.  The second component is the list of updates delivered to
each registered callback by this call. -/
def engineOnOrderUpdate (e : EngineState) (u : OrderUpdate) :
    EngineState × List OrderUpdate :=
  (update_order_state e u, [u])

/-- `ExecutionEngine::on_fill`, the engine-side bookkeeping of lines
321–377: stats update and the order-state arithmetic (the position-manager
and risk-manager notifications are `pmOnFill` / `riskOnFill` above; fill
callbacks are then delivered unconditionally). -/
def engineOnFill (e : EngineState) (f : Fill) : EngineState :=
  let e1 := { e with
      stats_total_orders_filled := e.stats_total_orders_filled + 1
      stats_total_volume_traded := e.stats_total_volume_traded + f.quantity
      stats_last_fill_timestamp_ns := f.timestamp_ns }
  match alookup f.order_id e1.active_orders with
  | none => e1
  | some st =>
      let filled := st.current_status.filled_qty + f.quantity
      let remaining := st.request.quantity - filled
      let total_value := st.current_status.avg_fill_price * (filled - f.quantity) +
        f.price * f.quantity
      let st2 := { st with
          current_status := { st.current_status with
            filled_qty := filled
            remaining_qty := remaining
            avg_fill_price := total_value / filled
            status := if remaining ≤ eps then OrderStatus.filled
                      else OrderStatus.partiallyFilled }
          last_update_ns := f.timestamp_ns }
      let e2 := { e1 with active_orders := aupdate f.order_id st2 e1.active_orders }
      if remaining ≤ eps then finalizeOrder e2 f.order_id else e2

theorem aupdate_keys_found {β : Type} (k : String) (v : β) :
    ∀ (l : List (String × β)) (v0 : β), alookup k l = some v0 →
      (aupdate k v l).map Prod.fst = l.map Prod.fst := by
  intro l
  induction l with
  | nil => intro v0 h; simp [alookup] at h
  | cons hd tl ih =>
      intro v0 h
      simp only [alookup] at h
      by_cases hk : hd.1 = k
      · simp [aupdate, hk]
      · rw [if_neg hk] at h
        simp [aupdate, hk, ih _ h]

/-- C7 (amended): a terminal update finalizes the order out of
`active_orders_`, and a later `on_order_update` for an id that is no longer
active leaves the engine state unchanged — but the registered order
callbacks are still invoked with the late update, so terminal finality holds
for the tracked state and not for callback delivery. -/
theorem engine_terminal_state_finality :
    (∀ (e : EngineState) (u : OrderUpdate),
      (e.active_orders.map Prod.fst).Nodup →
      isTerminalStatus u.status = true →
      alookup u.order_id (update_order_state e u).active_orders = none) ∧
    (∀ (e : EngineState) (u : OrderUpdate),
      alookup u.order_id e.active_orders = none →
      engineOnOrderUpdate e u = (e, [u])) := by
  constructor
  · intro e u hnd hterm
    unfold update_order_state
    cases hlk : alookup u.order_id e.active_orders with
    | none => simpa using hlk
    | some st =>
        simp only [if_pos hterm]
        unfold finalizeOrder
        rw [alookup_aupdate_self]
        apply alookup_aerase_self
        rw [aupdate_keys_found _ _ _ _ hlk]
        exact hnd
  · intro e u hlk
    unfold engineOnOrderUpdate update_order_state
    rw [hlk]

/-- Tracked order used by the C7 witness and counterexample. -/
def c7Req : OrderRequest := ⟨"O1", "EURUSD", OrderSide.buy, OrderType.market, 100, 0⟩

/-- Its engine entry of `c7Req`, acknowledged and unfilled. -/
def c7St : OrderState :=
  ⟨c7Req, ⟨"O1", OrderStatus.acknowledged, 0, 100, 0, "", 0⟩, "mock", 0, 0⟩

/-- Engine with `"O1"` active. -/
def c7E0 : EngineState := ⟨[("O1", c7St)], [], 0, 0, 0, 1⟩

/-- Terminal (cancelled) update for `"O1"`. -/
def c7U1 : OrderUpdate := ⟨"O1", OrderStatus.cancelled, 0, 100, 0, "", 1⟩

/-- A later, adapter-side duplicate update for `"O1"`. -/
def c7U2 : OrderUpdate := ⟨"O1", OrderStatus.cancelled, 0, 100, 0, "", 2⟩

/-- C7 fails as stated: after the terminal update `c7U1` for order `"O1"`
has been emitted (finalizing the order out of `active_orders_`), a late
`on_order_update` with `c7U2` still delivers `c7U2` to every registered
order callback — `on_order_update` notifies callbacks unconditionally. -/
theorem engine_terminal_callback_counterexample :
    isTerminalStatus c7U1.status = true ∧
    alookup "O1" (engineOnOrderUpdate c7E0 c7U1).1.active_orders = none ∧
    alookup "O1" (engineOnOrderUpdate c7E0 c7U1).1.completed_orders ≠ none ∧
    (engineOnOrderUpdate (engineOnOrderUpdate c7E0 c7U1).1 c7U2).2 = [c7U2] := by
  refine ⟨rfl, ?_, ?_, rfl⟩ <;>
    simp [engineOnOrderUpdate, update_order_state, finalizeOrder, c7E0, c7St, c7U1,
      alookup, aupdate, aerase, isTerminalStatus]

/-- Witness for the amended C7, applied at the concrete engine `c7E0`. -/
theorem engine_terminal_state_finality_witness :
    ((c7E0.active_orders.map Prod.fst).Nodup ∧
     isTerminalStatus c7U1.status = true ∧
     alookup c7U1.order_id (update_order_state c7E0 c7U1).active_orders = none) ∧
    (alookup c7U2.order_id (engineOnOrderUpdate c7E0 c7U1).1.active_orders = none ∧
     engineOnOrderUpdate (engineOnOrderUpdate c7E0 c7U1).1 c7U2 =
      ((engineOnOrderUpdate c7E0 c7U1).1, [c7U2])) := by
  have hnd : (c7E0.active_orders.map Prod.fst).Nodup := by
    simp [c7E0]
  have hterm : isTerminalStatus c7U1.status = true := rfl
  have hnone : alookup c7U2.order_id (engineOnOrderUpdate c7E0 c7U1).1.active_orders =
      none := by
    simp [engineOnOrderUpdate, update_order_state, finalizeOrder, c7E0, c7St, c7U1,
      c7U2, alookup, aupdate, aerase, isTerminalStatus]
  exact ⟨⟨hnd, hterm, engine_terminal_state_finality.1 c7E0 c7U1 hnd hterm⟩,
         ⟨hnone, engine_terminal_state_finality.2 (engineOnOrderUpdate c7E0 c7U1).1
            c7U2 hnone⟩⟩


/-! ### C8: per-order fill accounting -/

/-- Total quantity of a list of fills. -/
def sumQ (fills : List Fill) : ℚ := (fills.map Fill.quantity).sum

/-- Total traded value of a list of fills. -/
def sumQP (fills : List Fill) : ℚ := (fills.map (fun f => f.quantity * f.price)).sum

/-- The per-order state written by `on_fill` (lines 343–354) before the
finalize decision. -/
def fillUpdatedState (st : OrderState) (f : Fill) : OrderState :=
  { st with
    current_status := { st.current_status with
      filled_qty := st.current_status.filled_qty + f.quantity
      remaining_qty := st.request.quantity - (st.current_status.filled_qty + f.quantity)
      avg_fill_price := (st.current_status.avg_fill_price *
          (st.current_status.filled_qty + f.quantity - f.quantity) +
        f.price * f.quantity) / (st.current_status.filled_qty + f.quantity)
      status := if st.request.quantity - (st.current_status.filled_qty + f.quantity) ≤ eps
                then OrderStatus.filled else OrderStatus.partiallyFilled }
    last_update_ns := f.timestamp_ns }

/-- Engine after the stats update and the order-state write of `on_fill`. -/
def efill (e : EngineState) (f : Fill) (st : OrderState) : EngineState :=
  { e with
    stats_total_orders_filled := e.stats_total_orders_filled + 1
    stats_total_volume_traded := e.stats_total_volume_traded + f.quantity
    stats_last_fill_timestamp_ns := f.timestamp_ns
    active_orders := aupdate f.order_id (fillUpdatedState st f) e.active_orders }

/-- `on_fill` on a tracked order: update the state, then finalize exactly
when the remaining quantity is at most `1e-8`. -/
theorem engineOnFill_found (e : EngineState) (f : Fill) (st : OrderState)
    (hlk : alookup f.order_id e.active_orders = some st) :
    engineOnFill e f =
      if st.request.quantity - (st.current_status.filled_qty + f.quantity) ≤ eps then
        finalizeOrder (efill e f st) f.order_id
      else efill e f st := by
  simp only [engineOnFill, hlk, efill, fillUpdatedState]

theorem aupdate_length_le {β : Type} (k : String) (v : β) :
    ∀ l : List (String × β), (aupdate k v l).length ≤ l.length + 1 := by
  intro l
  induction l with
  | nil => simp [aupdate]
  | cons hd tl ih =>
      by_cases hk : hd.1 = k
      · simp [aupdate, hk]
      · simp only [aupdate, if_neg hk, List.length_cons]
        omega

/-- Engine with exactly one tracked order, as stored by `submit_order` right
after provider acknowledgement (nothing filled yet). -/
def engineStart (oid : String) (req : OrderRequest) (pn : String) (ts : Int) :
    EngineState :=
  ⟨[(oid, ⟨req, ⟨oid, OrderStatus.acknowledged, 0, req.quantity, 0, "", ts⟩, pn, ts, ts⟩)],
   [], 0, 0, 0, 1⟩

/-- Induction core for C8, generalized over the quantity `F` and value `V`
already filled into the tracked order. -/
theorem engine_fill_fold_aux (oid : String) (req : OrderRequest) :
    ∀ (fills : List Fill) (e : EngineState) (st : OrderState) (F V : ℚ),
      alookup oid e.active_orders = some st →
      (e.active_orders.map Prod.fst).Nodup →
      st.request = req →
      e.completed_orders.length ≤ 999 →
      st.current_status.filled_qty = F →
      st.current_status.avg_fill_price * F = V →
      0 ≤ F →
      (∀ f ∈ fills, f.order_id = oid ∧ 0 < f.quantity) →
      (∀ p, p <+: fills → p ≠ fills → eps < req.quantity - (F + sumQ p)) →
      fills ≠ [] →
      ((req.quantity - (F + sumQ fills) ≤ eps →
        alookup oid (fills.foldl engineOnFill e).active_orders = none ∧
        ∃ st', alookup oid (fills.foldl engineOnFill e).completed_orders = some st' ∧
          st'.current_status.filled_qty = F + sumQ fills ∧
          st'.current_status.remaining_qty = req.quantity - (F + sumQ fills) ∧
          st'.current_status.avg_fill_price * (F + sumQ fills) = V + sumQP fills ∧
          st'.current_status.status = OrderStatus.filled) ∧
       (eps < req.quantity - (F + sumQ fills) →
        ∃ st', alookup oid (fills.foldl engineOnFill e).active_orders = some st' ∧
          st'.current_status.filled_qty = F + sumQ fills ∧
          st'.current_status.remaining_qty = req.quantity - (F + sumQ fills) ∧
          st'.current_status.avg_fill_price * (F + sumQ fills) = V + sumQP fills ∧
          st'.current_status.status = OrderStatus.partiallyFilled)) := by
  intro fills
  induction fills with
  | nil =>
      intro e st F V _ _ _ _ _ _ _ _ _ hne
      exact absurd rfl hne
  | cons f rest ih =>
      intro e st F V hlk hnd hreq hcomp hF hV hFnn hall hpre _
      obtain ⟨hfid, hfpos⟩ := hall f (List.mem_cons_self f rest)
      have hflk : alookup f.order_id e.active_orders = some st := by
        rw [hfid]; exact hlk
      have hne0 : F + f.quantity ≠ 0 := ne_of_gt (by linarith)
      have hfill2 : (fillUpdatedState st f).current_status.filled_qty = F + f.quantity := by
        simp [fillUpdatedState, hF]
      have hrem2 : (fillUpdatedState st f).current_status.remaining_qty =
          req.quantity - (F + f.quantity) := by
        simp [fillUpdatedState, hF, hreq]
      have havg2 : (fillUpdatedState st f).current_status.avg_fill_price *
          (F + f.quantity) = V + f.quantity * f.price := by
        simp only [fillUpdatedState, hF]
        rw [add_sub_cancel_right, div_mul_cancel₀ _ hne0, hV]
        ring
      have hreq2 : (fillUpdatedState st f).request = req := hreq
      have hlk2 : alookup oid (efill e f st).active_orders =
          some (fillUpdatedState st f) := by
        simp only [efill]
        rw [← hfid]
        exact alookup_aupdate_self _ _ _
      have hnd2 : ((efill e f st).active_orders.map Prod.fst).Nodup := by
        simp only [efill]
        rw [aupdate_keys_found _ _ _ _ hflk]
        exact hnd
      have hsumq : sumQ (f :: rest) = f.quantity + sumQ rest := by
        simp [sumQ]
      have hsumqp : sumQP (f :: rest) = f.quantity * f.price + sumQP rest := by
        simp [sumQP]
      rw [List.foldl_cons, engineOnFill_found e f st hflk, hreq, hF, hfid]
      cases rest with
      | nil =>
          have hsq : sumQ [f] = f.quantity := by simp [sumQ]
          have hsqp : sumQP [f] = f.quantity * f.price := by simp [sumQP]
          rw [hsq, hsqp]
          by_cases hdone : req.quantity - (F + f.quantity) ≤ eps
          · rw [if_pos hdone]
            simp only [List.foldl_nil]
            constructor
            · intro _
              constructor
              · simp only [finalizeOrder, hlk2]
                exact alookup_aerase_self oid _ hnd2
              · refine ⟨fillUpdatedState st f, ?_, hfill2, hrem2, havg2, ?_⟩
                · simp only [finalizeOrder, hlk2]
                  have hlen := aupdate_length_le oid (fillUpdatedState st f)
                    (efill e f st).completed_orders
                  have hc : (efill e f st).completed_orders.length ≤ 999 := hcomp
                  rw [if_neg (by omega)]
                  exact alookup_aupdate_self _ _ _
                · simp only [fillUpdatedState, hF, hreq]
                  rw [if_pos hdone]
            · intro hcontra
              linarith
          · rw [if_neg hdone]
            simp only [List.foldl_nil]
            constructor
            · intro hcontra
              exact absurd hcontra hdone
            · intro _
              refine ⟨fillUpdatedState st f, hlk2, hfill2, hrem2, havg2, ?_⟩
              simp only [fillUpdatedState, hF, hreq]
              rw [if_neg hdone]
      | cons g rest2 =>
          have hproper : eps < req.quantity - (F + f.quantity) := by
            have := hpre [f] ⟨g :: rest2, rfl⟩ (by simp)
            simpa [sumQ] using this
          rw [if_neg (not_le.mpr hproper)]
          have hih := ih (efill e f st) (fillUpdatedState st f) (F + f.quantity)
            (V + f.quantity * f.price) hlk2 hnd2 hreq2 hcomp hfill2 havg2
            (by linarith)
            (fun x hx => hall x (List.mem_cons_of_mem f hx))
            (fun p hp hnep => by
              have hcons : (f :: p) <+: (f :: g :: rest2) := by
                rcases hp with ⟨t, ht⟩
                exact ⟨t, by rw [List.cons_append, ht]⟩
              have hnecons : (f :: p) ≠ (f :: g :: rest2) := by
                intro hcontra
                exact hnep (List.cons.inj hcontra).2
              have hfp := hpre (f :: p) hcons hnecons
              have hsump : sumQ (f :: p) = f.quantity + sumQ p := by simp [sumQ]
              rw [hsump] at hfp
              linarith)
            (by simp)
          rw [hsumq, hsumqp]
          have harr : F + (f.quantity + sumQ (g :: rest2)) =
              F + f.quantity + sumQ (g :: rest2) := by ring
          have harr2 : V + (f.quantity * f.price + sumQP (g :: rest2)) =
              V + f.quantity * f.price + sumQP (g :: rest2) := by ring
          rw [harr, harr2]
          exact hih

/-- Positivity of the total quantity of a nonempty list of positive fills. -/
theorem sumQ_pos (fills : List Fill) (hne : fills ≠ [])
    (hpos : ∀ f ∈ fills, 0 < f.quantity) : 0 < sumQ fills := by
  cases fills with
  | nil => exact absurd rfl hne
  | cons f rest =>
      have h1 : 0 < f.quantity := hpos f (List.mem_cons_self f rest)
      have h2 : 0 ≤ sumQ rest := by
        apply List.sum_nonneg
        intro x hx
        obtain ⟨g, hg, rfl⟩ := List.mem_map.mp hx
        exact le_of_lt (hpos g (List.mem_cons_of_mem f hg))
      simp only [sumQ, List.map_cons, List.sum_cons]
      have h2' : 0 ≤ (rest.map Fill.quantity).sum := h2
      linarith

/-- C8: for every nonempty sequence of fills for a tracked order (each with
positive quantity, the order staying open on every proper prefix), the
engine accumulates `filled_qty` as the total filled quantity, keeps
`remaining_qty = request.quantity − filled_qty`, keeps `avg_fill_price`
equal to the volume-weighted average price of the applied fills, and sets
the status to Filled — finalizing the entry out of `active_orders_` into the
completed history — exactly when `remaining_qty ≤ 1e-8`, and to
PartiallyFilled (still active) otherwise. -/
theorem engine_fill_accounting (oid pn : String) (req : OrderRequest) (ts : Int)
    (fills : List Fill)
    (hall : ∀ f ∈ fills, f.order_id = oid ∧ 0 < f.quantity)
    (hpre : ∀ p, p <+: fills → p ≠ fills → eps < req.quantity - sumQ p)
    (hne : fills ≠ []) :
    ((req.quantity - sumQ fills ≤ eps →
      alookup oid (fills.foldl engineOnFill (engineStart oid req pn ts)).active_orders =
        none ∧
      ∃ st', alookup oid
          (fills.foldl engineOnFill (engineStart oid req pn ts)).completed_orders =
          some st' ∧
        st'.current_status.filled_qty = sumQ fills ∧
        st'.current_status.remaining_qty = req.quantity - sumQ fills ∧
        st'.current_status.avg_fill_price = sumQP fills / sumQ fills ∧
        st'.current_status.status = OrderStatus.filled) ∧
     (eps < req.quantity - sumQ fills →
      ∃ st', alookup oid
          (fills.foldl engineOnFill (engineStart oid req pn ts)).active_orders =
          some st' ∧
        st'.current_status.filled_qty = sumQ fills ∧
        st'.current_status.remaining_qty = req.quantity - sumQ fills ∧
        st'.current_status.avg_fill_price = sumQP fills / sumQ fills ∧
        st'.current_status.status = OrderStatus.partiallyFilled)) := by
  have hq : 0 < sumQ fills := sumQ_pos fills hne (fun f hf => (hall f hf).2)
  have haux := engine_fill_fold_aux oid req fills (engineStart oid req pn ts)
    ⟨req, ⟨oid, OrderStatus.acknowledged, 0, req.quantity, 0, "", ts⟩, pn, ts, ts⟩
    0 0
    (by simp [engineStart, alookup])
    (by simp [engineStart])
    rfl
    (by simp [engineStart])
    rfl
    (by simp)
    le_rfl
    hall
    (by intro p hp hnep; simpa using hpre p hp hnep)
    hne
  simp only [zero_add] at haux
  obtain ⟨hdone, hopen⟩ := haux
  constructor
  · intro h
    obtain ⟨hnone, st', hlk', h1, h2, h3, h4⟩ := hdone h
    refine ⟨hnone, st', hlk', h1, h2, ?_, h4⟩
    rw [eq_div_iff (ne_of_gt hq)]
    exact h3
  · intro h
    obtain ⟨st', hlk', h1, h2, h3, h4⟩ := hopen h
    refine ⟨st', hlk', h1, h2, ?_, h4⟩
    rw [eq_div_iff (ne_of_gt hq)]
    exact h3

/-- Fill used by the C8 witness: 40 units at price 10 for `"O1"`. -/
def c8Fill : Fill := ⟨"F1", "O1", "EURUSD", OrderSide.buy, 40, 10, 0, 0⟩

/-- Order request of the C8 witness: buy 100. -/
def c8Req : OrderRequest := ⟨"O1", "EURUSD", OrderSide.buy, OrderType.market, 100, 0⟩

/-- Witness for C8 at the one-fill history 40 @ 10 against a 100-unit
order (a partial fill). -/
theorem engine_fill_accounting_witness :
    ((∀ f ∈ [c8Fill], f.order_id = "O1" ∧ 0 < f.quantity) ∧
     (∀ p, p <+: [c8Fill] → p ≠ [c8Fill] → eps < c8Req.quantity - sumQ p) ∧
     [c8Fill] ≠ ([] : List Fill)) ∧
    ((c8Req.quantity - sumQ [c8Fill] ≤ eps →
      alookup "O1" ([c8Fill].foldl engineOnFill
        (engineStart "O1" c8Req "mock" 0)).active_orders = none ∧
      ∃ st', alookup "O1" ([c8Fill].foldl engineOnFill
          (engineStart "O1" c8Req "mock" 0)).completed_orders = some st' ∧
        st'.current_status.filled_qty = sumQ [c8Fill] ∧
        st'.current_status.remaining_qty = c8Req.quantity - sumQ [c8Fill] ∧
        st'.current_status.avg_fill_price = sumQP [c8Fill] / sumQ [c8Fill] ∧
        st'.current_status.status = OrderStatus.filled) ∧
     (eps < c8Req.quantity - sumQ [c8Fill] →
      ∃ st', alookup "O1" ([c8Fill].foldl engineOnFill
          (engineStart "O1" c8Req "mock" 0)).active_orders = some st' ∧
        st'.current_status.filled_qty = sumQ [c8Fill] ∧
        st'.current_status.remaining_qty = c8Req.quantity - sumQ [c8Fill] ∧
        st'.current_status.avg_fill_price = sumQP [c8Fill] / sumQ [c8Fill] ∧
        st'.current_status.status = OrderStatus.partiallyFilled)) := by
  have hall : ∀ f ∈ [c8Fill], f.order_id = "O1" ∧ 0 < f.quantity := by
    intro f hf
    simp only [List.mem_singleton] at hf
    subst hf
    exact ⟨rfl, by norm_num [c8Fill]⟩
  have hpre : ∀ p, p <+: [c8Fill] → p ≠ [c8Fill] →
      eps < c8Req.quantity - sumQ p := by
    intro p hp hnep
    rcases hp with ⟨t, ht⟩
    cases p with
    | nil => norm_num [sumQ, c8Req, eps]
    | cons x xs =>
        simp only [List.cons_append] at ht
        injection ht with h1 h2
        have hxs : xs = [] := by
          cases xs with
          | nil => rfl
          | cons y ys => simp at h2
        subst hxs
        simp only [List.nil_append] at h2
        subst h2 h1
        exact absurd rfl hnep
  have hne : [c8Fill] ≠ ([] : List Fill) := by simp
  exact ⟨⟨hall, hpre, hne⟩,
    engine_fill_accounting "O1" "mock" c8Req 0 [c8Fill] hall hpre hne⟩

end QL
